import Mathlib

/-!
# ConsoleRemove

A shallow embedding of `cmd/main.go`: the line scanner in its two modes
(`removeConsoleLog`, `searchInContent`), the path filter (`shouldSkipPath`,
`isRelevantFile`) and the file operations (`processFile`, `revertFile`) over a file
system that is a map from paths to byte contents. The calls to the operating system
(`os.Open`, `io.ReadAll`, `os.ReadFile`, `os.WriteFile`, `os.Remove`) may fail; which of
them fail is a parameter `Sys` of the file operations, and every error return of the
source is a result of the model.

Go strings and byte slices are byte sequences; a byte is modelled by its numeric value.
The parenthesis counter is a Go `int`; it moves by one per byte read, so it cannot leave
the 64-bit range on any content that fits in memory and is modelled in `Int`.
-/

namespace ConsoleRemove

/-- A Go `string` or `[]byte`: the sequence of its bytes. -/
abbrev Bytes := List Nat

/-- The bytes of an ASCII literal of the source. -/
def lit (s : String) : Bytes := s.toList.map Char.toNat

/-! ## The parts of the Go standard library that the program calls -/

/-- `strings.HasPrefix(s, p)`. -/
def startsWith (s p : Bytes) : Bool := p.isPrefixOf s

/-- `strings.HasSuffix(s, p)`. -/
def endsWith (s p : Bytes) : Bool := p.isSuffixOf s

/-- `strings.Index(s, sub)`: the position of the first occurrence of `sub` in `s`;
`none` stands for Go's `-1`. -/
def index : Bytes → Bytes → Option Nat
  | [], sub => if startsWith [] sub then some 0 else none
  | b :: s, sub =>
    if startsWith (b :: s) sub then some 0
    else (index s sub).map (· + 1)

/-- `strings.Contains(s, sub)`. -/
def contains (s sub : Bytes) : Bool := (index s sub).isSome

/-- `strings.TrimSuffix(s, suffix)`. -/
def trimSuffix (s suffix : Bytes) : Bytes :=
  if endsWith s suffix then s.take (s.length - suffix.length) else s

/-- `bytes.Split(content, []byte{'\n'})`: the pieces between line feeds; a content
without line feed, the empty one included, is one piece. -/
def splitLF : Bytes → List Bytes
  | [] => [[]]
  | b :: bs =>
    if b = 10 then [] :: splitLF bs
    else
      match splitLF bs with
      | [] => [[b]]
      | l :: ls => (b :: l) :: ls

/-- `bytes.Join(lines, []byte{'\n'})` and `strings.Join(lines, "\n")`. -/
def joinLF : List Bytes → Bytes
  | [] => []
  | [l] => l
  | l :: ls => l ++ 10 :: joinLF ls

/-- The UTF-8 encodings of the code points for which `unicode.IsSpace` holds:
U+0009..U+000D, U+0020, U+0085, U+00A0, U+1680, U+2000..U+200A, U+2028, U+2029,
U+202F, U+205F and U+3000. -/
def spaceRunes : List Bytes :=
  [[9], [10], [11], [12], [13], [32], [0xC2, 0x85], [0xC2, 0xA0], [0xE1, 0x9A, 0x80],
   [0xE2, 0x80, 0x80], [0xE2, 0x80, 0x81], [0xE2, 0x80, 0x82], [0xE2, 0x80, 0x83],
   [0xE2, 0x80, 0x84], [0xE2, 0x80, 0x85], [0xE2, 0x80, 0x86], [0xE2, 0x80, 0x87],
   [0xE2, 0x80, 0x88], [0xE2, 0x80, 0x89], [0xE2, 0x80, 0x8A], [0xE2, 0x80, 0xA8],
   [0xE2, 0x80, 0xA9], [0xE2, 0x80, 0xAF], [0xE2, 0x81, 0x9F], [0xE3, 0x80, 0x80]]

/-- One step of `strings.TrimLeftFunc`: when `s` starts with one of the encodings, what
follows it. -/
def dropRune (encs : List Bytes) (s : Bytes) : Option Bytes :=
  (encs.find? (fun e => startsWith s e)).map (fun e => s.drop e.length)

/-- The loop of `strings.TrimLeftFunc`, at most `fuel` runes. -/
def trimLeftLoop (encs : List Bytes) : Nat → Bytes → Bytes
  | 0, s => s
  | fuel + 1, s =>
    match dropRune encs s with
    | some r => trimLeftLoop encs fuel r
    | none => s

/-- `strings.TrimLeftFunc(s, f)` for the `f` that holds of the runes encoded in `encs`;
every encoding has at least one byte, so `s.length` steps reach the end of the loop. -/
def trimLeft (encs : List Bytes) (s : Bytes) : Bytes := trimLeftLoop encs s.length s

/-- `strings.TrimSpace(s)`: leading, then trailing white space is cut off. A string
starts (ends) with a white-space rune exactly when it starts (ends) with the encoding of
one: Go decodes an ill-formed byte to U+FFFD, which is no white space. The trailing cut
reads the reversed string against the reversed encodings. -/
def trimSpace (s : Bytes) : Bytes :=
  (trimLeft (spaceRunes.map List.reverse) (trimLeft spaceRunes s).reverse).reverse

/-- `strings.ToLower(s)` on ASCII letters. On a string with a non-ASCII byte Go's result
keeps a non-ASCII byte or holds an `i` or a `k` where U+0130 or U+212A stood; no entry of
the extension table of `isRelevantFile` has such a byte, so the table lookup is the same. -/
def toLower (s : Bytes) : Bytes := s.map (fun b => if 65 ≤ b ∧ b ≤ 90 then b + 32 else b)

/-- `os.IsPathSeparator(b)`: `/`, and on Windows also `\`. -/
def isPathSeparator (windows : Bool) (b : Nat) : Bool := b = 47 || (windows && b = 92)

/-- The loop of `filepath.Ext`, from the last byte backwards: `rev` is what is left to
read, reversed, and `acc` what has been read. -/
def extLoop (windows : Bool) : Bytes → Bytes → Bytes
  | [], _ => []
  | b :: rev, acc =>
    if isPathSeparator windows b then []
    else if b = 46 then b :: acc
    else extLoop windows rev (b :: acc)

/-- `filepath.Ext(path)`: the suffix from the last dot of the last path element. -/
def filepathExt (windows : Bool) (path : Bytes) : Bytes := extLoop windows path.reverse []

/-- `filepath.ToSlash(path)`: the identity where the separator is `/`, and `\` replaced
by `/` on Windows. -/
def toSlash (windows : Bool) (path : Bytes) : Bytes :=
  if windows then path.map (fun b => if b = 92 then 47 else b) else path

/-! ## The scanner -/

/-- The literal `"console.log"`. -/
def consoleLog : Bytes := lit "console.log"

/-- The literal `"//"`. -/
def lineMark : Bytes := lit "//"

/-- The literal `"/*"`. -/
def blockOpen : Bytes := lit "/*"

/-- The literal `"*/"`. -/
def blockClose : Bytes := lit "*/"

/-- The loop `for _, ch := range s` of both modes, entered with `parenCount`: `(` adds one,
`)` takes one off and ends the loop when the count is then zero. The result is the count
left and whether the loop was ended that way. Go ranges over runes; the bytes `(` and `)`
are read as themselves wherever they stand (an ill-formed sequence is read one byte at a
time), so reading bytes gives the same counts. -/
def scanParens : Int → Bytes → Int × Bool
  | parenCount, [] => (parenCount, false)
  | parenCount, ch :: s =>
    if ch = 40 then scanParens (parenCount + 1) s
    else if ch = 41 then
      if parenCount - 1 = 0 then (parenCount - 1, true)
      else scanParens (parenCount - 1) s
    else scanParens parenCount s

/-- The variables of `removeConsoleLog` that live across lines, `newLines` apart. -/
structure RemoveState where
  inComment : Bool
  inConsoleLog : Bool
  parenCount : Int
  changed : Bool
  deriving DecidableEq

/-- The state in which `removeConsoleLog` enters its loop. -/
def RemoveState.init : RemoveState :=
  { inComment := false, inConsoleLog := false, parenCount := 0, changed := false }

/-- The loop body of `removeConsoleLog` from `if inConsoleLog` on, which a line reaches
when the comment handling has not kept it: the state after it and `shouldKeepLine`. -/
def removeScan (st : RemoveState) (line : Bytes) : RemoveState × Bool :=
  if st.inConsoleLog then
    let r := scanParens st.parenCount line
    ({ st with inConsoleLog := !r.2, parenCount := r.1, changed := true }, false)
  else if contains line consoleLog then
    match index line consoleLog with
    | none => (st, true)
    | some startIdx =>
      if contains (line.take startIdx) lineMark then (st, true)
      else
        let rest := line.drop startIdx
        match index rest (lit "(") with
        | none => (st, true)
        | some openParenIndex =>
          let r := scanParens 0 (rest.drop openParenIndex)
          if r.1 = 0 then ({ st with parenCount := r.1, changed := true }, false)
          else ({ st with inConsoleLog := true, parenCount := r.1, changed := true }, false)
  else (st, true)

/-- The body of the loop of `removeConsoleLog` on one line, the comment handling first:
the state after it and whether the line was appended to `newLines`. -/
def removeStep (st : RemoveState) (line : Bytes) : RemoveState × Bool :=
  let opened := if !st.inComment && contains line blockOpen then true else st.inComment
  let inComment := if opened && contains line blockClose then false else opened
  let st := { st with inComment := inComment }
  if !inComment && startsWith (trimSpace line) lineMark then (st, true)
  else if inComment then (st, true)
  else removeScan st line

/-- The loop of `removeConsoleLog` over the lines still to read: `newLines` and the
state at the end. -/
def removeLoop : RemoveState → List Bytes → List Bytes → List Bytes × RemoveState
  | st, newLines, [] => (newLines, st)
  | st, newLines, line :: lines =>
    let r := removeStep st line
    removeLoop r.1 (if r.2 then newLines ++ [line] else newLines) lines

/-- `removeConsoleLog(content, path)`: the content without the lines of the matched
calls, and `changed`. -/
def removeConsoleLog (content : Bytes) (_path : Bytes) : Bytes × Bool :=
  let r := removeLoop RemoveState.init [] (splitLF content)
  (joinLF r.1, r.2.changed)

/-- What `searchInContent` prints for a match:
`"File: %s\nLine %d: %s\n\n"` or `"File: %s\nLines %d-%d: %s\n\n"`. -/
inductive MatchRecord where
  | line (path : Bytes) (n : Nat) (text : Bytes)
  | lines (path : Bytes) (start stop : Nat) (text : Bytes)
  deriving DecidableEq

/-- The variables of `searchInContent` that live across lines. -/
structure SearchState where
  inComment : Bool
  inConsoleLog : Bool
  consoleLogStart : Nat
  parenCount : Int
  consoleLogLines : List Bytes
  deriving DecidableEq

/-- The state in which `searchInContent` enters its loop. -/
def SearchState.init : SearchState :=
  { inComment := false, inConsoleLog := false, consoleLogStart := 0, parenCount := 0,
    consoleLogLines := [] }

/-- The text of a multi-line record: over 500 bytes, the first 497 and `"..."`. -/
def truncateStatement (fullStatement : Bytes) : Bytes :=
  if fullStatement.length > 500 then fullStatement.take 497 ++ lit "..." else fullStatement

/-- The loop body of `searchInContent` on line `i` (from 0) from `if inConsoleLog` on,
which a line reaches when the comment handling has not passed over it: the state after
it and what it printed. -/
def searchScan (path : Bytes) (st : SearchState) (i : Nat) (line : Bytes) :
    SearchState × List MatchRecord :=
  if st.inConsoleLog then
    let consoleLogLines := st.consoleLogLines ++ [line]
    let r := scanParens st.parenCount line
    if r.2 then
      ({ st with inConsoleLog := false, parenCount := r.1, consoleLogLines := consoleLogLines },
        [MatchRecord.lines path st.consoleLogStart (i + 1)
          (truncateStatement (joinLF consoleLogLines))])
    else ({ st with parenCount := r.1, consoleLogLines := consoleLogLines }, [])
  else if contains line consoleLog then
    match index line consoleLog with
    | none => (st, [])
    | some startIdx =>
      if contains (line.take startIdx) lineMark then (st, [])
      else
        let st := { st with consoleLogStart := i + 1, consoleLogLines := [line] }
        let rest := line.drop startIdx
        match index rest (lit "(") with
        | none => ({ st with inConsoleLog := true, parenCount := 0 }, [])
        | some openParenIndex =>
          let r := scanParens 0 (rest.drop openParenIndex)
          if r.2 then
            ({ st with inConsoleLog := false, parenCount := r.1 },
              [MatchRecord.line path (i + 1) (trimSpace line)])
          else ({ st with inConsoleLog := true, parenCount := r.1 }, [])
  else (st, [])

/-- The body of the loop of `searchInContent` on line `i` (from 0), the comment handling
first: the state after it and what it printed. -/
def searchStep (path : Bytes) (st : SearchState) (i : Nat) (line : Bytes) :
    SearchState × List MatchRecord :=
  let trimmedLine := trimSpace line
  if !st.inComment && startsWith trimmedLine lineMark then (st, [])
  else if !st.inComment && contains line blockOpen then ({ st with inComment := true }, [])
  else if st.inComment then
    if contains line blockClose then ({ st with inComment := false }, []) else (st, [])
  else searchScan path st i line

/-- The loop of `searchInContent` from line `i` on: everything printed. -/
def searchLoop (path : Bytes) : SearchState → Nat → List Bytes → List MatchRecord
  | _, _, [] => []
  | st, i, line :: lines =>
    let r := searchStep path st i line
    r.2 ++ searchLoop path r.1 (i + 1) lines

/-- `searchInContent(content, path)`: the records it prints, in order. The Go function
returns `nil` on every content. -/
def searchInContent (content : Bytes) (path : Bytes) : List MatchRecord :=
  searchLoop path SearchState.init 0 (splitLF content)

/-! ## The path filter -/

/-- The table `skipPatterns`. -/
def skipPatterns : List Bytes :=
  [".git", ".svn", ".hg", ".bzr", "_darcs",
   "node_modules", "bower_components",
   "venv", "env", ".env", "__pycache__", ".pytest_cache", "*.egg-info", ".eggs", ".tox",
   "vendor/bundle", ".bundle",
   "vendor", "composer/cache",
   "target", ".gradle", "build", ".maven", ".m2",
   "target", "cargo/registry",
   "vendor", ".go/cache", "go/pkg",
   "bin", "obj", "packages",
   "dist", "build", "out", "output", "release", "releases", "public/build", ".next",
   ".nuxt", ".vuepress/dist",
   ".idea", ".vscode", ".vs", "*.sublime-workspace", ".atom",
   "docs/_build", "site", ".docusaurus",
   ".cache", "tmp", ".tmp", "temp", ".temp",
   "coverage", ".nyc_output", "htmlcov", ".coverage",
   "logs", "*.log",
   ".jenkins", ".github", ".gitlab", ".circleci",
   "package-lock.json", "yarn.lock", "Gemfile.lock", "composer.lock", "poetry.lock",
   "*.min.js", "*.min.css",
   "raycast",
   ".local", ".vim",
   "Library"].map lit

/-- `shouldSkipPath(path)`. -/
def shouldSkipPath (windows : Bool) (path : Bytes) : Bool :=
  let normalizedPath := toSlash windows path
  skipPatterns.any (fun pattern => contains normalizedPath pattern)

/-- The keys of the map `relevantExts`. -/
def relevantExts : List Bytes :=
  [".js", ".jsx", ".ts", ".tsx", ".vue", ".mjs", ".cjs", ".html", ".md"].map lit

/-- `isRelevantFile(path)`. -/
def isRelevantFile (windows : Bool) (path : Bytes) : Bool :=
  let ext := toLower (filepathExt windows path)
  if contains path (lit "-min") || contains path (lit ".min") then false
  else decide (ext ∈ relevantExts)

/-! ## The file operations -/

/-- The file system: the content of every file that exists. Directories hold no content;
whether a visited path is one is the `isDir` argument of the operations. -/
abbrev FS := Bytes → Option Bytes

/-- The file system with `content` stored at `path`: what a write that succeeds leaves. -/
def FS.store (fs : FS) (path content : Bytes) : FS :=
  fun q => if q = path then some content else fs q

/-- The file system without the file `path`: what a removal that succeeds leaves. -/
def FS.erase (fs : FS) (path : Bytes) : FS :=
  fun q => if q = path then none else fs q

/-- What the operating system decides and the map of contents does not: which calls fail
(a path that is a directory, a name too long, a full disk, a missing permission), and
what a write that fails leaves of its file. -/
structure Sys where
  openFails : FS → Bytes → Bool
  readFails : FS → Bytes → Bool
  writeFails : FS → Bytes → Bytes → Bool
  leftByWrite : FS → Bytes → Bytes → Option Bytes
  removeFails : FS → Bytes → Bool

/-- An operating system on which no call fails unless the file system makes it fail. -/
def Sys.reliable : Sys :=
  { openFails := fun _ _ => false, readFails := fun _ _ => false,
    writeFails := fun _ _ _ => false, leftByWrite := fun fs path _ => fs path,
    removeFails := fun _ _ => false }

/-- `os.WriteFile(path, content, 0644)`: the file system after it and whether it failed.
No file has the empty name, so a write to the empty path fails and changes nothing; a
write that fails otherwise changes at most the file it was to write. -/
def osWriteFile (sys : Sys) (fs : FS) (path content : Bytes) : FS × Bool :=
  if path = [] then (fs, true)
  else if sys.writeFails fs path content then
    (fun q => if q = path then sys.leftByWrite fs path content else fs q, true)
  else (FS.store fs path content, false)

/-- `os.Remove(path)`: the file system after it and whether it failed; the removal of a
file that does not exist fails. -/
def osRemove (sys : Sys) (fs : FS) (path : Bytes) : FS × Bool :=
  if (fs path).isNone || sys.removeFails fs path then (fs, true)
  else (FS.erase fs path, false)

/-- The errors the operations return. -/
inductive WalkErr where
  | skipDir
  | opening
  | reading
  | creatingBackup
  | writing
  | readingBackup
  | writingOriginal
  | removingBackup
  deriving DecidableEq

/-- The literal `".bak"`. -/
def bak : Bytes := lit ".bak"

/-- `processFile(path, info, err, shouldDelete)` on the file system `fs`, with
`info.IsDir()` given by `isDir`: the file system after it, the records printed and the
error returned. `os.Open` fails on a file that does not exist. -/
def processFile (sys : Sys) (windows : Bool) (fs : FS) (path : Bytes) (isDir : Bool)
    (err : Option WalkErr) (shouldDelete : Bool) : FS × List MatchRecord × Option WalkErr :=
  match err with
  | some e => (fs, [], some e)
  | none =>
    if shouldSkipPath windows path then
      (fs, [], if isDir then some WalkErr.skipDir else none)
    else if isDir then (fs, [], none)
    else if !isRelevantFile windows path then (fs, [], none)
    else
      match fs path with
      | none => (fs, [], some WalkErr.opening)
      | some content =>
        if sys.openFails fs path then (fs, [], some WalkErr.opening)
        else if sys.readFails fs path then (fs, [], some WalkErr.reading)
        else if shouldDelete then
          let r := removeConsoleLog content path
          if r.2 then
            let backupPath := path ++ bak
            let w1 := osWriteFile sys fs backupPath content
            if w1.2 then (w1.1, [], some WalkErr.creatingBackup)
            else
              let w2 := osWriteFile sys w1.1 path r.1
              if w2.2 then (w2.1, [], some WalkErr.writing)
              else (w2.1, [], none)
          else (fs, [], none)
        else (fs, searchInContent content path, none)

/-- `revertFile(path, info, err)` on the file system `fs`: the file system after it and
the error returned. `os.ReadFile` fails on a file that does not exist. -/
def revertFile (sys : Sys) (fs : FS) (path : Bytes) (isDir : Bool) (err : Option WalkErr) :
    FS × Option WalkErr :=
  match err with
  | some e => (fs, some e)
  | none =>
    if isDir then (fs, none)
    else if endsWith path bak then
      let originalPath := trimSuffix path bak
      match fs path with
      | none => (fs, some WalkErr.readingBackup)
      | some backupContent =>
        if sys.openFails fs path || sys.readFails fs path then
          (fs, some WalkErr.readingBackup)
        else
          let w := osWriteFile sys fs originalPath backupContent
          if w.2 then (w.1, some WalkErr.writingOriginal)
          else
            let r := osRemove sys w.1 path
            if r.2 then (r.1, some WalkErr.removingBackup) else (r.1, none)
    else (fs, none)

/-- The walk of `main` in revert mode over the files `paths`, in the order in which
`filepath.Walk` visits them: `revertFile` on each, and the walk ends at the first error. -/
def revertWalk (sys : Sys) : FS → List Bytes → FS × Option WalkErr
  | fs, [] => (fs, none)
  | fs, path :: paths =>
    match revertFile sys fs path false none with
    | (fs1, none) => revertWalk sys fs1 paths
    | (fs1, some e) => (fs1, some e)

/-! ## Notions used to state the properties -/

/-- The parenthesis balance of a text: the number of `(` less the number of `)`. -/
def balance (s : Bytes) : Int := (s.count 40 : Int) - (s.count 41 : Int)

/-- A text without comment marker: neither `//` nor `/*` nor `*/` occurs in it. -/
def noMarker (s : Bytes) : Prop :=
  contains s lineMark = false ∧ contains s blockOpen = false ∧ contains s blockClose = false

/-- The value of `inComment` after the comment handling of `removeConsoleLog` has read
`line`, from the value `inComment` before. -/
def commentAfter (inComment : Bool) (line : Bytes) : Bool :=
  let opened := if !inComment && contains line blockOpen then true else inComment
  if opened && contains line blockClose then false else opened

/-- The lines that the comment handling of `removeConsoleLog` appends to `newLines`
whatever the call state is: those inside a block comment and, outside of one, those
that start with `//` once trimmed. -/
def commentLines : Bool → List Bytes → List Bytes
  | _, [] => []
  | inComment, line :: lines =>
    let c := commentAfter inComment line
    if c || startsWith (trimSpace line) lineMark then line :: commentLines c lines
    else commentLines c lines

/-- The other lines: those that `removeConsoleLog` reads as code. -/
def codeLines : Bool → List Bytes → List Bytes
  | _, [] => []
  | inComment, line :: lines =>
    let c := commentAfter inComment line
    if c || startsWith (trimSpace line) lineMark then codeLines c lines
    else line :: codeLines c lines

/-- What a line that `removeConsoleLog` reads as code, outside a call, does: `none` when
the line is kept (it has no `console.log`, or the first one stands behind `//` or has no
`(` after it), and otherwise the parenthesis count at the end of the line. -/
def callStart (line : Bytes) : Option Int :=
  match index line consoleLog with
  | none => none
  | some startIdx =>
    if contains (line.take startIdx) lineMark then none
    else
      match index (line.drop startIdx) (lit "(") with
      | none => none
      | some openParenIndex =>
        some (scanParens 0 ((line.drop startIdx).drop openParenIndex)).1

/-- The lines that `removeConsoleLog` keeps: its `newLines` at the end of the loop. -/
def keptLines (content : Bytes) : List Bytes :=
  (removeLoop RemoveState.init [] (splitLF content)).1

/-- The state of `searchInContent` after its loop has read `lines`, from line `i` (from 0)
on. -/
def searchEnd (path : Bytes) : SearchState → Nat → List Bytes → SearchState
  | st, _, [] => st
  | st, i, line :: lines => searchEnd path (searchStep path st i line).1 (i + 1) lines

/-- The line numbers that a record stands for: its line, or its lines from the first to
the last. -/
def recordLines : MatchRecord → List Nat
  | MatchRecord.line _ n _ => [n]
  | MatchRecord.lines _ start stop _ => List.range' start (stop + 1 - start)

/-- The text of a record. -/
def recordText : MatchRecord → Bytes
  | MatchRecord.line _ _ text => text
  | MatchRecord.lines _ _ _ text => text

/-- The last element of a path: what follows its last separator. -/
def lastElement (windows : Bool) (path : Bytes) : Bytes :=
  (path.reverse.takeWhile (fun b => !isPathSeparator windows b)).reverse

/-- The part of a name from its last dot on, empty when the name has no dot. -/
def dotSuffix (name : Bytes) : Bytes :=
  if 46 ∈ name then 46 :: (name.reverse.takeWhile (fun b => !decide (b = 46))).reverse
  else []

/-- A one-line call of 516 bytes: `console.log("`, 500 times `a`, and `");`. -/
def longCall : Bytes := lit "console.log(\"" ++ List.replicate 500 97 ++ lit "\");"

/-- An operating system on which the write of `a.js.bak` fails and leaves the file
empty, and no other call fails. -/
def Sys.backupWriteFails : Sys :=
  { openFails := fun _ _ => false, readFails := fun _ _ => false,
    writeFails := fun _ path _ => decide (path = lit "a.js.bak"),
    leftByWrite := fun _ _ _ => some [],
    removeFails := fun _ _ => false }

/-- An operating system on which no file can be opened. -/
def Sys.openFailing : Sys :=
  { openFails := fun _ _ => true, readFails := fun _ _ => false,
    writeFails := fun _ _ _ => false, leftByWrite := fun fs path _ => fs path,
    removeFails := fun _ _ => false }

/-- A file system with a script `a.js` and a file `a.js.bak.bak`, and nothing else. -/
def backupOfBackupFS : FS := fun q =>
  if q = lit "a.js" then some (lit "console.log(x)")
  else if q = lit "a.js.bak.bak" then some (lit "z")
  else none

/-- A file system with a file named `.bak` and the script `a.js`, and nothing else. -/
def dotBakFS : FS := fun q =>
  if q = lit ".bak" then some (lit "z")
  else if q = lit "a.js" then some (lit "console.log(x)")
  else none

/-- A file system with the script `a.js` and nothing else. -/
def oneScriptFS : FS := fun q =>
  if q = lit "a.js" then some (lit "console.log(x)") else none

/-! ## Strings -/

theorem startsWith_iff {s p : Bytes} : startsWith s p = true ↔ p <+: s := by
  simp [startsWith]

theorem endsWith_iff {s p : Bytes} : endsWith s p = true ↔ p <:+ s := by
  simp [endsWith]

theorem index_cons (b : Nat) (s sub : Bytes) :
    index (b :: s) sub =
      if startsWith (b :: s) sub then some 0 else (index s sub).map (· + 1) := by
  rw [index]

/-- `index` finds an occurrence exactly when there is one. -/
theorem contains_iff {s sub : Bytes} : contains s sub = true ↔ sub <:+: s := by
  unfold contains
  induction s with
  | nil =>
    simp only [index]
    by_cases h : startsWith [] sub = true
    · simp only [h, if_true, Option.isSome_some, true_iff]
      exact (startsWith_iff.1 h).isInfix
    · simp only [h, if_false, Option.isSome_none, Bool.false_eq_true, false_iff]
      intro hin
      have hnil : sub = [] := List.eq_nil_of_infix_nil hin
      subst hnil
      exact h (startsWith_iff.2 (List.prefix_refl _))
  | cons b s ih =>
    rw [index_cons]
    by_cases h : startsWith (b :: s) sub = true
    · simp only [h, if_true, Option.isSome_some, true_iff]
      exact (startsWith_iff.1 h).isInfix
    · simp only [h, if_false, Option.isSome_map', Bool.false_eq_true]
      rw [ih, List.infix_cons_iff]
      constructor
      · exact fun h1 => Or.inr h1
      · rintro (h1 | h1)
        · exact absurd (startsWith_iff.2 h1) h
        · exact h1

theorem contains_false_iff {s sub : Bytes} : contains s sub = false ↔ ¬ sub <:+: s := by
  rw [← contains_iff]; simp

theorem contains_false_of_part {s t sub : Bytes} (hst : s <:+: t)
    (h : contains t sub = false) : contains s sub = false := by
  rw [contains_false_iff] at h ⊢
  exact fun h1 => h (h1.trans hst)

/-- Where `index` finds `sub`, `sub` stands. -/
theorem index_some_startsWith {s sub : Bytes} {i : Nat} (h : index s sub = some i) :
    sub <+: s.drop i := by
  induction s generalizing i with
  | nil =>
    simp only [index] at h
    split at h
    · next h1 =>
      cases h
      simpa using startsWith_iff.1 h1
    · cases h
  | cons b s ih =>
    rw [index_cons] at h
    split at h
    · next h1 =>
      cases h
      simpa using startsWith_iff.1 h1
    · cases hi : index s sub with
      | none => simp [hi] at h
      | some k =>
        simp only [hi, Option.map_some', Option.some.injEq] at h
        subst h
        simpa using ih hi

theorem contains_of_index {s sub : Bytes} {i : Nat} (h : index s sub = some i) :
    contains s sub = true := by
  simp [contains, h]

theorem index_none_of_contains_false {s sub : Bytes} (h : contains s sub = false) :
    index s sub = none := by
  unfold contains at h
  simpa using h

/-! ## Splitting into lines and joining -/

theorem splitLF_ne_nil (c : Bytes) : splitLF c ≠ [] := by
  cases c with
  | nil => simp [splitLF]
  | cons b bs =>
    rw [splitLF]
    split
    · simp
    · split <;> simp

theorem joinLF_cons_cons (l l1 : Bytes) (ls : List Bytes) :
    joinLF (l :: l1 :: ls) = l ++ 10 :: joinLF (l1 :: ls) := by
  rw [joinLF]
  exact fun h => List.cons_ne_nil _ _ h

theorem joinLF_cons_of_ne_nil (l : Bytes) {ls : List Bytes} (h : ls ≠ []) :
    joinLF (l :: ls) = l ++ 10 :: joinLF ls := by
  cases ls with
  | nil => exact absurd rfl h
  | cons l1 ls => exact joinLF_cons_cons l l1 ls

theorem joinLF_push_head (b : Nat) (l : Bytes) (ls : List Bytes) :
    joinLF ((b :: l) :: ls) = b :: joinLF (l :: ls) := by
  cases ls with
  | nil => simp [joinLF]
  | cons l1 ls => simp [joinLF_cons_cons]

/-- Joining the lines of a content gives the content back. -/
theorem joinLF_splitLF (c : Bytes) : joinLF (splitLF c) = c := by
  induction c with
  | nil => simp [splitLF, joinLF]
  | cons b bs ih =>
    rw [splitLF]
    split
    · next hb =>
      rw [joinLF_cons_of_ne_nil _ (splitLF_ne_nil bs), ih, hb]; rfl
    · split
      · next h => exact absurd h (splitLF_ne_nil bs)
      · next l ls h =>
        rw [joinLF_push_head, ← h, ih]

theorem splitLF_of_noLF {l : Bytes} (h : 10 ∉ l) : splitLF l = [l] := by
  induction l with
  | nil => simp [splitLF]
  | cons b bs ih =>
    have hb : b ≠ 10 := fun hb => h (by simp [hb])
    have hbs : 10 ∉ bs := fun hbs => h (by simp [hbs])
    rw [splitLF, if_neg hb, ih hbs]

theorem splitLF_append_LF {l : Bytes} (h : 10 ∉ l) (r : Bytes) :
    splitLF (l ++ 10 :: r) = l :: splitLF r := by
  induction l with
  | nil => simp [splitLF]
  | cons b bs ih =>
    have hb : b ≠ 10 := fun hb => h (by simp [hb])
    have hbs : 10 ∉ bs := fun hbs => h (by simp [hbs])
    rw [List.cons_append, splitLF, if_neg hb, ih hbs]

/-- Splitting the join of lines without line feed gives the lines back. -/
theorem splitLF_joinLF {ls : List Bytes} (hne : ls ≠ []) (h : ∀ l ∈ ls, 10 ∉ l) :
    splitLF (joinLF ls) = ls := by
  induction ls with
  | nil => exact absurd rfl hne
  | cons l ls ih =>
    cases ls with
    | nil => simpa [joinLF] using splitLF_of_noLF (h l (by simp))
    | cons l1 ls =>
      rw [joinLF_cons_cons, splitLF_append_LF (h l (by simp)),
        ih (List.cons_ne_nil _ _) (fun x hx => h x (List.mem_cons_of_mem _ hx))]

theorem noLF_of_mem_splitLF {c l : Bytes} (h : l ∈ splitLF c) : 10 ∉ l := by
  induction c generalizing l with
  | nil =>
    simp only [splitLF, List.mem_singleton] at h
    subst h; simp
  | cons b bs ih =>
    rw [splitLF] at h
    split at h
    · rcases List.mem_cons.1 h with h1 | h1
      · subst h1; simp
      · exact ih h1
    · next hb =>
      split at h
      · next h0 => exact absurd h0 (splitLF_ne_nil bs)
      · next l0 ls h0 =>
        rcases List.mem_cons.1 h with h1 | h1
        · subst h1
          have : 10 ∉ l0 := ih (by rw [h0]; simp)
          simp only [List.mem_cons, not_or]
          exact ⟨fun e => hb e.symm, this⟩
        · exact ih (by rw [h0]; exact List.mem_cons_of_mem _ h1)

theorem infix_joinLF_of_mem {ls : List Bytes} {l : Bytes} (h : l ∈ ls) : l <:+: joinLF ls := by
  induction ls with
  | nil => cases h
  | cons l0 ls ih =>
    cases ls with
    | nil =>
      simp only [List.mem_singleton] at h
      subst h; simp [joinLF]
    | cons l1 ls =>
      rw [joinLF_cons_cons]
      rcases List.mem_cons.1 h with h1 | h1
      · subst h1
        exact (List.prefix_append _ _).isInfix
      · exact (ih h1).trans ((List.suffix_cons _ _).trans (List.suffix_append _ _)).isInfix

/-- A line of a content is a part of it. -/
theorem infix_of_mem_splitLF {c l : Bytes} (h : l ∈ splitLF c) : l <:+: c := by
  have := infix_joinLF_of_mem h
  rwa [joinLF_splitLF] at this

/-! ## Trimming -/

theorem trimLeftLoop_suffix (encs : List Bytes) (n : Nat) (s : Bytes) :
    trimLeftLoop encs n s <:+ s := by
  induction n generalizing s with
  | zero => exact List.suffix_refl _
  | succ n ih =>
    rw [trimLeftLoop]
    cases h : dropRune encs s with
    | none => exact List.suffix_refl _
    | some r =>
      simp only []
      unfold dropRune at h
      cases hf : List.find? (fun e => startsWith s e) encs with
      | none => simp [hf] at h
      | some e =>
        simp only [hf, Option.map_some', Option.some.injEq] at h
        subst h
        exact (ih _).trans (List.drop_suffix _ _)

/-- The fuel of `trimLeft` is enough: nothing is left to cut from what the loop returns
when it is given at least as many steps as the text has bytes. -/
theorem trimLeftLoop_done (encs : List Bytes) (hne : ∀ e ∈ encs, e ≠ []) (n : Nat)
    (s : Bytes) (h : s.length ≤ n) : dropRune encs (trimLeftLoop encs n s) = none := by
  induction n generalizing s with
  | zero =>
    have hs : s = [] := List.length_eq_zero.1 (by omega)
    subst hs
    rw [trimLeftLoop]
    unfold dropRune
    cases hf : List.find? (fun e => startsWith [] e) encs with
    | none => rfl
    | some e =>
      have he : e ∈ encs := List.mem_of_find?_eq_some hf
      have hp : e <+: [] := startsWith_iff.1 (by simpa using List.find?_some hf)
      exact absurd (List.prefix_nil.1 hp) (hne e he)
  | succ n ih =>
    rw [trimLeftLoop]
    cases hd : dropRune encs s with
    | none => simpa using hd
    | some r =>
      simp only []
      apply ih
      unfold dropRune at hd
      cases hf : List.find? (fun e => startsWith s e) encs with
      | none => simp [hf] at hd
      | some e =>
        simp only [hf, Option.map_some', Option.some.injEq] at hd
        have he : e ∈ encs := List.mem_of_find?_eq_some hf
        have hp : e <+: s := startsWith_iff.1 (by simpa using List.find?_some hf)
        have hlen : 0 < e.length := List.length_pos.2 (hne e he)
        have hle := hp.length_le
        rw [← hd, List.length_drop]
        omega

theorem trimLeft_spaceRunes_done (s : Bytes) :
    dropRune spaceRunes (trimLeft spaceRunes s) = none :=
  trimLeftLoop_done spaceRunes (by decide) s.length s (le_refl _)

theorem trimSpace_part (s : Bytes) : trimSpace s <:+: s := by
  unfold trimSpace trimLeft
  have h1 := trimLeftLoop_suffix spaceRunes s.length s
  have h2 := trimLeftLoop_suffix (spaceRunes.map List.reverse)
    (trimLeftLoop spaceRunes s.length s).reverse.length (trimLeftLoop spaceRunes s.length s).reverse
  have h3 := List.reverse_prefix.2 h2
  rw [List.reverse_reverse] at h3
  exact h3.isInfix.trans h1.isInfix

/-- A line in which `//` does not occur does not start with `//` once trimmed. -/
theorem not_lineComment_of_no_lineMark {l : Bytes} (h : contains l lineMark = false) :
    startsWith (trimSpace l) lineMark = false := by
  by_contra hc
  rw [Bool.not_eq_false, startsWith_iff] at hc
  rw [contains_false_iff] at h
  exact h (hc.isInfix.trans (trimSpace_part l))

theorem balance_nil : balance [] = 0 := by simp [balance]

theorem balance_cons (b : Nat) (s : Bytes) :
    balance (b :: s) = (if b = 40 then 1 else if b = 41 then -1 else 0) + balance s := by
  unfold balance
  rw [List.count_cons, List.count_cons]
  by_cases h1 : b = 40
  · subst h1; simp; ring
  · by_cases h2 : b = 41
    · subst h2; simp; ring
    · simp [h1, h2]

theorem balance_append (s t : Bytes) : balance (s ++ t) = balance s + balance t := by
  unfold balance
  rw [List.count_append, List.count_append]
  push_cast
  ring

/-- The loop entered with a positive count either ends at zero, at the first place where
the count and the balance read so far cancel, or runs to the end of the text with the
count above zero throughout. -/
theorem scanParens_spec (pc : Int) (s : Bytes) (hpc : 0 < pc) :
    (scanParens pc s = (0, true) ∧ ∃ k, pc + balance (s.take k) = 0) ∨
      (scanParens pc s = (pc + balance s, false) ∧ ∀ k, 0 < pc + balance (s.take k)) := by
  induction s generalizing pc with
  | nil =>
    right
    simp [scanParens, balance_nil, hpc]
  | cons ch s ih =>
    rw [scanParens]
    have htake : ∀ k, 0 < pc + balance (List.take k (ch :: s)) ∨ ∃ j, k = j + 1 := by
      intro k
      cases k with
      | zero => left; simp [balance_nil, hpc]
      | succ j => right; exact ⟨j, rfl⟩
    by_cases h1 : ch = 40
    · subst h1
      simp only [if_true]
      rcases ih (pc + 1) (by omega) with ⟨he, k, hk⟩ | ⟨he, hk⟩
      · left
        refine ⟨he, k + 1, ?_⟩
        rw [List.take_succ_cons, balance_cons]
        simp only [if_true]
        omega
      · right
        refine ⟨?_, ?_⟩
        · rw [he, balance_cons]
          simp only [if_true]
          congr 1
          ring
        · intro k
          rcases htake k with h | ⟨j, rfl⟩
          · exact h
          · rw [List.take_succ_cons, balance_cons]
            simp only [if_true]
            have := hk j
            omega
    · by_cases h2 : ch = 41
      · subst h2
        simp only [h1, if_false, if_true]
        by_cases h0 : pc - 1 = 0
        · left
          simp only [h0, if_true, true_and]
          refine ⟨1, ?_⟩
          rw [List.take_succ_cons, balance_cons]
          simp [balance_nil]
          omega
        · simp only [h0, if_false]
          rcases ih (pc - 1) (by omega) with ⟨he, k, hk⟩ | ⟨he, hk⟩
          · left
            refine ⟨he, k + 1, ?_⟩
            rw [List.take_succ_cons, balance_cons]
            simp only [h1, if_false, if_true]
            omega
          · right
            refine ⟨?_, ?_⟩
            · rw [he, balance_cons]
              simp only [h1, if_false, if_true]
              congr 1
              ring
            · intro k
              rcases htake k with h | ⟨j, rfl⟩
              · exact h
              · rw [List.take_succ_cons, balance_cons]
                simp only [h1, if_false, if_true]
                have := hk j
                omega
      · simp only [h1, h2, if_false]
        rcases ih pc hpc with ⟨he, k, hk⟩ | ⟨he, hk⟩
        · left
          refine ⟨he, k + 1, ?_⟩
          rw [List.take_succ_cons, balance_cons]
          simp only [h1, h2, if_false]
          omega
        · right
          refine ⟨?_, ?_⟩
          · rw [he, balance_cons]
            simp only [h1, h2, if_false]
            congr 1
            ring
          · intro k
            rcases htake k with h | ⟨j, rfl⟩
            · exact h
            · rw [List.take_succ_cons, balance_cons]
              simp only [h1, h2, if_false]
              have := hk j
              omega

theorem scanParens_close {pc : Int} {s : Bytes} (hpc : 0 < pc)
    (h : ∃ k, pc + balance (s.take k) = 0) : scanParens pc s = (0, true) := by
  rcases scanParens_spec pc s hpc with ⟨he, _⟩ | ⟨_, hk⟩
  · exact he
  · obtain ⟨k, hk0⟩ := h
    have := hk k
    omega

theorem scanParens_open {pc : Int} {s : Bytes} (hpc : 0 < pc)
    (h : ∀ k, pc + balance (s.take k) ≠ 0) :
    scanParens pc s = (pc + balance s, false) ∧ 0 < pc + balance s := by
  rcases scanParens_spec pc s hpc with ⟨_, k, hk⟩ | ⟨he, hk⟩
  · exact absurd hk (h k)
  · refine ⟨he, ?_⟩
    have := hk s.length
    rwa [List.take_length] at this

/-- The loop of a line that starts a call, entered with zero at the `(`. -/
theorem scanParens_zero_cons (s : Bytes) : scanParens 0 (40 :: s) = scanParens 1 s := by
  rw [scanParens]
  simp

theorem scanParens_start_close {x : Bytes} (hx : lit "(" <+: x)
    (h : ∃ k, 0 < k ∧ balance (x.take k) = 0) : scanParens 0 x = (0, true) := by
  obtain ⟨t, rfl⟩ := hx
  obtain ⟨k, hk, hb⟩ := h
  have hl : lit "(" = [40] := by decide
  rw [hl] at hb ⊢
  simp only [List.singleton_append, List.cons_append, List.nil_append] at hb ⊢
  rw [scanParens_zero_cons]
  apply scanParens_close (by omega)
  obtain ⟨j, rfl⟩ : ∃ j, k = j + 1 := ⟨k - 1, by omega⟩
  refine ⟨j, ?_⟩
  rw [List.take_succ_cons, balance_cons] at hb
  simpa using hb

theorem scanParens_start_open {x : Bytes} (hx : lit "(" <+: x)
    (h : ∀ k, 0 < k → balance (x.take k) ≠ 0) :
    scanParens 0 x = (balance x, false) ∧ 0 < balance x := by
  obtain ⟨t, rfl⟩ := hx
  have hl : lit "(" = [40] := by decide
  rw [hl] at h ⊢
  simp only [List.singleton_append, List.cons_append, List.nil_append] at h ⊢
  rw [scanParens_zero_cons, balance_cons]
  simp only [if_true]
  apply scanParens_open (by omega)
  intro k
  have := h (k + 1) (by omega)
  rw [List.take_succ_cons, balance_cons] at this
  simpa using this

/-! ## The loop of `removeConsoleLog` -/

theorem removeLoop_acc (st : RemoveState) (acc ls : List Bytes) :
    removeLoop st acc ls = (acc ++ (removeLoop st [] ls).1, (removeLoop st [] ls).2) := by
  induction ls generalizing st acc with
  | nil => simp [removeLoop]
  | cons l ls ih =>
    simp only [removeLoop]
    rw [ih, ih (removeStep st l).1 (if (removeStep st l).2 = true then [] ++ [l] else [])]
    cases (removeStep st l).2 <;> simp

theorem removeLoop_cons (st : RemoveState) (l : Bytes) (ls : List Bytes) :
    removeLoop st [] (l :: ls) =
      ((if (removeStep st l).2 then [l] else []) ++ (removeLoop (removeStep st l).1 [] ls).1,
        (removeLoop (removeStep st l).1 [] ls).2) := by
  rw [removeLoop, removeLoop_acc]
  simp

theorem removeLoop_append (st : RemoveState) (xs ys : List Bytes) :
    removeLoop st [] (xs ++ ys) =
      ((removeLoop st [] xs).1 ++ (removeLoop (removeLoop st [] xs).2 [] ys).1,
        (removeLoop (removeLoop st [] xs).2 [] ys).2) := by
  induction xs generalizing st with
  | nil => simp [removeLoop]
  | cons l xs ih =>
    rw [List.cons_append, removeLoop_cons, removeLoop_cons, ih]
    simp

theorem removeScan_active (st : RemoveState) (l : Bytes) (hst : st.inConsoleLog = true) :
    removeScan st l =
      ({ st with inConsoleLog := !(scanParens st.parenCount l).2,
                 parenCount := (scanParens st.parenCount l).1, changed := true }, false) := by
  simp [removeScan, hst]

theorem removeScan_idle (st : RemoveState) (l : Bytes) (hst : st.inConsoleLog = false) :
    removeScan st l =
      match callStart l with
      | none => (st, true)
      | some pc =>
        ({ st with inConsoleLog := decide (pc ≠ 0), parenCount := pc, changed := true }, false) := by
  unfold removeScan callStart
  simp only [hst, Bool.false_eq_true, if_false]
  cases hi : index l consoleLog with
  | none => simp [contains, hi]
  | some i =>
    simp only [contains, hi, Option.isSome_some, if_true]
    by_cases hm : (index (List.take i l) lineMark).isSome = true
    · simp [hm]
    · simp only [hm, Bool.false_eq_true, if_false]
      cases hj : index (List.drop i l) (lit "(") with
      | none => simp
      | some j =>
        simp only []
        split_ifs with h0 <;> simp [hst] <;> simpa using h0

theorem removeStep_eq (st : RemoveState) (l : Bytes) :
    removeStep st l =
      if commentAfter st.inComment l || startsWith (trimSpace l) lineMark then
        ({ st with inComment := commentAfter st.inComment l }, true)
      else removeScan { st with inComment := false } l := by
  unfold removeStep commentAfter
  rcases st.inComment <;> rcases contains l blockOpen <;> rcases contains l blockClose <;>
    rcases startsWith (trimSpace l) lineMark <;> simp

/-- A line read outside a call whose first `console.log`, if it has one, stands behind a
`//` is kept, and no call starts on it. -/
theorem removeStep_guarded (st : RemoveState) (l : Bytes) (hst : st.inConsoleLog = false)
    (h : ∀ i, index l consoleLog = some i → contains (l.take i) lineMark = true) :
    (removeStep st l).2 = true ∧ (removeStep st l).1.inConsoleLog = false ∧
      (removeStep st l).1.changed = st.changed := by
  have hcs : callStart l = none := by
    unfold callStart
    cases hi : index l consoleLog with
    | none => rfl
    | some i => simp [h i hi]
  rw [removeStep_eq]
  split
  · simp [hst]
  · have hs := removeScan_idle { st with inComment := false } l hst
    rw [hcs] at hs
    rw [hs]
    simp [hst]

theorem removeLoop_guarded (st : RemoveState) (ls : List Bytes) (hst : st.inConsoleLog = false)
    (h : ∀ l ∈ ls, ∀ i, index l consoleLog = some i → contains (l.take i) lineMark = true) :
    (removeLoop st [] ls).1 = ls ∧ (removeLoop st [] ls).2.changed = st.changed := by
  induction ls generalizing st with
  | nil => simp [removeLoop]
  | cons l ls ih =>
    obtain ⟨h1, h2, h3⟩ := removeStep_guarded st l hst (h l (by simp))
    obtain ⟨h4, h5⟩ := ih (removeStep st l).1 h2 (fun x hx => h x (List.mem_cons_of_mem _ hx))
    rw [removeLoop_cons, h1, h4, h5, h3]
    simp

theorem searchScan_guarded (path : Bytes) (st : SearchState) (n : Nat) (l : Bytes)
    (hst : st.inConsoleLog = false)
    (h : ∀ i, index l consoleLog = some i → contains (l.take i) lineMark = true) :
    searchScan path st n l = (st, []) := by
  unfold searchScan
  simp only [hst, Bool.false_eq_true, if_false]
  cases hi : index l consoleLog with
  | none => simp [contains, hi]
  | some i => simp [h i hi]

theorem searchStep_guarded (path : Bytes) (st : SearchState) (n : Nat) (l : Bytes)
    (hst : st.inConsoleLog = false)
    (h : ∀ i, index l consoleLog = some i → contains (l.take i) lineMark = true) :
    (searchStep path st n l).2 = [] ∧ (searchStep path st n l).1.inConsoleLog = false := by
  unfold searchStep
  rw [searchScan_guarded path st n l hst h]
  simp only []
  split_ifs <;> simp [hst]

theorem searchLoop_guarded (path : Bytes) (st : SearchState) (n : Nat) (ls : List Bytes)
    (hst : st.inConsoleLog = false)
    (h : ∀ l ∈ ls, ∀ i, index l consoleLog = some i → contains (l.take i) lineMark = true) :
    searchLoop path st n ls = [] := by
  induction ls generalizing st n with
  | nil => simp [searchLoop]
  | cons l ls ih =>
    obtain ⟨h1, h2⟩ := searchStep_guarded path st n l hst (h l (by simp))
    simp only [searchLoop]
    rw [h1, ih _ _ h2 (fun x hx => h x (List.mem_cons_of_mem _ hx))]
    rfl

theorem commentAfter_false_of_no_open {l : Bytes} (h : contains l blockOpen = false) :
    commentAfter false l = false := by
  simp [commentAfter, h]

/-- A line without comment marker read outside a comment goes to the scan of calls. -/
theorem removeStep_of_noMarker (st : RemoveState) (l : Bytes) (hc : st.inComment = false)
    (h : noMarker l) : removeStep st l = removeScan st l := by
  have hst : { st with inComment := false } = st := by
    cases st; simp_all
  rw [removeStep_eq, hc, commentAfter_false_of_no_open h.2.1,
    not_lineComment_of_no_lineMark h.1, hst]
  simp

/-- Lines without comment marker and without `console.log`, read outside a comment and
outside a call, are all kept and leave the state as it is. -/
theorem removeLoop_plain (st : RemoveState) (ls : List Bytes) (hc : st.inComment = false)
    (hl : st.inConsoleLog = false)
    (h : ∀ l ∈ ls, noMarker l ∧ contains l consoleLog = false) :
    removeLoop st [] ls = (ls, st) := by
  induction ls with
  | nil => simp [removeLoop]
  | cons l ls ih =>
    have hstep : removeStep st l = (st, true) := by
      rw [removeStep_of_noMarker st l hc (h l (by simp)).1, removeScan_idle st l hl]
      have : callStart l = none := by
        unfold callStart
        rw [index_none_of_contains_false (h l (by simp)).2]
      rw [this]
    rw [removeLoop_cons, hstep, ih (fun x hx => h x (List.mem_cons_of_mem _ hx))]
    simp

/-- The count with which a line that opens a call leaves its loop, from the places of
the first `console.log` and of the first `(` after it. -/
theorem callStart_of_index {l : Bytes} {i j : Nat} (hi : index l consoleLog = some i)
    (hm : contains (l.take i) lineMark = false) (hj : index (l.drop i) (lit "(") = some j) :
    callStart l = some (scanParens 0 ((l.drop i).drop j)).1 := by
  unfold callStart
  simp [hi, hm, hj]

/-- Inside a call whose count never comes back to zero on the lines read as code, the
loop keeps the comment lines and omits the others. -/
theorem removeLoop_active (st : RemoveState) (ls : List Bytes)
    (hl : st.inConsoleLog = true) (hpc : 0 < st.parenCount) (hch : st.changed = true)
    (hopen : ∀ k, st.parenCount +
      balance ((codeLines st.inComment ls).flatten.take k) ≠ 0) :
    removeLoop st [] ls =
      (commentLines st.inComment ls,
        { inComment := ls.foldl commentAfter st.inComment, inConsoleLog := true,
          parenCount := st.parenCount + balance (codeLines st.inComment ls).flatten,
          changed := true }) := by
  induction ls generalizing st with
  | nil =>
    cases st
    simp_all [removeLoop, commentLines, codeLines, balance_nil]
  | cons l ls ih =>
    rw [removeLoop_cons, removeStep_eq]
    by_cases hk : (commentAfter st.inComment l || startsWith (trimSpace l) lineMark) = true
    · simp only [hk, if_true]
      simp only [codeLines, hk, if_true] at hopen
      rw [ih { st with inComment := commentAfter st.inComment l } hl hpc hch hopen]
      simp [commentLines, codeLines, hk]
    · simp only [hk, Bool.false_eq_true, if_false]
      simp only [codeLines, hk, Bool.false_eq_true, if_false, List.flatten_cons] at hopen
      have hca : commentAfter st.inComment l = false := by
        cases h : commentAfter st.inComment l
        · rfl
        · simp [h] at hk
      have hline : ∀ k, st.parenCount + balance (l.take k) ≠ 0 := by
        intro k
        by_cases hkl : k ≤ l.length
        · have := hopen k
          rwa [List.take_append_of_le_length hkl] at this
        · have := hopen l.length
          rw [List.take_append_of_le_length (le_refl _), List.take_length] at this
          rwa [List.take_of_length_le (by omega)]
      obtain ⟨hs, hpos⟩ := scanParens_open hpc hline
      have hrest : ∀ k, st.parenCount + balance l +
          balance ((codeLines false ls).flatten.take k) ≠ 0 := by
        intro k
        have := hopen (l.length + k)
        rw [List.take_append, balance_append] at this
        rw [hca] at this
        omega
      have hstep : removeScan { st with inComment := false } l =
          ({ inComment := false, inConsoleLog := true,
             parenCount := st.parenCount + balance l, changed := true }, false) := by
        rw [removeScan_active { st with inComment := false } l hl]
        simp [hs]
      rw [hstep]
      simp only []
      rw [ih { inComment := false, inConsoleLog := true,
               parenCount := st.parenCount + balance l, changed := true } rfl hpos rfl hrest]
      have hlc : startsWith (trimSpace l) lineMark = false := by
        cases h : startsWith (trimSpace l) lineMark
        · rfl
        · simp [h] at hk
      simp [commentLines, codeLines, hlc, hca, balance_append, add_assoc]

theorem commentLines_of_noMarker (ls : List Bytes) (h : ∀ l ∈ ls, noMarker l) :
    commentLines false ls = [] ∧ codeLines false ls = ls ∧
      ls.foldl commentAfter false = false := by
  induction ls with
  | nil => simp [commentLines, codeLines]
  | cons l ls ih =>
    obtain ⟨h1, h2, h3⟩ := ih (fun x hx => h x (List.mem_cons_of_mem _ hx))
    have hl := h l (by simp)
    simp [commentLines, codeLines, commentAfter_false_of_no_open hl.2.1,
      not_lineComment_of_no_lineMark hl.1, h1, h2, h3]

theorem noMarker_of_part {s t : Bytes} (hst : s <:+: t) (h : noMarker t) : noMarker s :=
  ⟨contains_false_of_part hst h.1, contains_false_of_part hst h.2.1,
    contains_false_of_part hst h.2.2⟩

theorem removeConsoleLog_eq (c path : Bytes) :
    removeConsoleLog c path =
      (joinLF (keptLines c), (removeLoop RemoveState.init [] (splitLF c)).2.changed) := rfl

theorem removeConsoleLog_guarded (c path : Bytes)
    (h : ∀ l ∈ splitLF c, ∀ i, index l consoleLog = some i →
      contains (l.take i) lineMark = true) :
    removeConsoleLog c path = (c, false) := by
  obtain ⟨h1, h2⟩ := removeLoop_guarded RemoveState.init (splitLF c) rfl h
  rw [removeConsoleLog_eq, keptLines, h1, h2, joinLF_splitLF]
  rfl

theorem index_none_of_line {c l : Bytes} (h : contains c consoleLog = false)
    (hl : l ∈ splitLF c) : index l consoleLog = none :=
  index_none_of_contains_false (contains_false_of_part (infix_of_mem_splitLF hl) h)

theorem keptLines_sublist_aux (st : RemoveState) (ls : List Bytes) :
    List.Sublist (removeLoop st [] ls).1 ls := by
  induction ls generalizing st with
  | nil => simp [removeLoop]
  | cons l ls ih =>
    rw [removeLoop_cons]
    cases (removeStep st l).2
    · simpa using (ih _).cons l
    · simpa using (ih _).cons₂ l

theorem keptLines_sublist (c : Bytes) : List.Sublist (keptLines c) (splitLF c) :=
  keptLines_sublist_aux _ _

/-! ## The claims on contents without a call to remove -/

/-- C1: a content in which `console.log` does not occur comes back from
`removeConsoleLog` byte for byte with `changed = false`, and `processFile` in delete
mode then leaves the file system as it was, so that no `.bak` file is written. -/
theorem C1_no_occurrence_unchanged (c path : Bytes) (h : contains c consoleLog = false) :
    removeConsoleLog c path = (c, false) ∧
      ∀ (sys : Sys) (windows : Bool) (fs : FS) (isDir : Bool) (err : Option WalkErr),
        fs path = some c → (processFile sys windows fs path isDir err true).1 = fs := by
  have hrm : removeConsoleLog c path = (c, false) :=
    removeConsoleLog_guarded c path (fun l hl i hi => by
      rw [index_none_of_line h hl] at hi; cases hi)
  refine ⟨hrm, ?_⟩
  intro sys windows fs isDir err hfs
  unfold processFile
  cases err with
  | some e => rfl
  | none =>
    simp only [hfs, hrm, Bool.false_eq_true, if_false]
    split_ifs <;> rfl

/-- C1 at the empty content, at a content that ends with a line feed and at one that
does not. -/
theorem C1_no_occurrence_unchanged_witness :
    (contains [] consoleLog = false ∧ removeConsoleLog [] (lit "a.js") = ([], false)) ∧
    (contains (lit "let a = 1;\n") consoleLog = false ∧
      removeConsoleLog (lit "let a = 1;\n") (lit "a.js") = (lit "let a = 1;\n", false)) ∧
    (contains (lit "f(1)\n\ng(2)") consoleLog = false ∧
      removeConsoleLog (lit "f(1)\n\ng(2)") (lit "a.js") = (lit "f(1)\n\ng(2)", false)) :=
  ⟨⟨by decide, (C1_no_occurrence_unchanged _ _ (by decide)).1⟩,
   ⟨by decide, (C1_no_occurrence_unchanged _ _ (by decide)).1⟩,
   ⟨by decide, (C1_no_occurrence_unchanged _ _ (by decide)).1⟩⟩

/-- C4: when on every line that contains `console.log` the text before its first
occurrence contains `//`, `removeConsoleLog` returns the content with `changed = false`
and `searchInContent` prints no record. -/
theorem C4_line_comment_ignored (c path : Bytes)
    (h : ∀ l ∈ splitLF c, ∀ i, index l consoleLog = some i →
      contains (l.take i) lineMark = true) :
    removeConsoleLog c path = (c, false) ∧ searchInContent c path = [] :=
  ⟨removeConsoleLog_guarded c path h, searchLoop_guarded path _ _ _ rfl h⟩

/-- C4 at the one-line content `// console.log(x)`. -/
theorem C4_line_comment_ignored_witness :
    removeConsoleLog (lit "// console.log(x)") (lit "a.js") = (lit "// console.log(x)", false) ∧
      searchInContent (lit "// console.log(x)") (lit "a.js") = [] :=
  C4_line_comment_ignored (lit "// console.log(x)") (lit "a.js") (by
    intro l hl i hi
    have hs : splitLF (lit "// console.log(x)") = [lit "// console.log(x)"] := by decide
    rw [hs, List.mem_singleton] at hl
    subst hl
    have h3 : index (lit "// console.log(x)") consoleLog = some 3 := by decide
    rw [h3] at hi
    cases hi
    decide)

/-! ## The claims on the removal of a call -/

/-- A line without comment marker that opens a call and closes it, read outside a
comment and outside a call, is omitted. -/
theorem removeStep_single (st : RemoveState) (L : Bytes) (i j : Nat)
    (hc : st.inComment = false) (hl : st.inConsoleLog = false) (hm : noMarker L)
    (hi : index L consoleLog = some i) (hj : index (L.drop i) (lit "(") = some j)
    (hbal : ∃ k, 0 < k ∧ balance (((L.drop i).drop j).take k) = 0) :
    removeStep st L = ({ st with parenCount := 0, changed := true }, false) := by
  have hpre : contains (L.take i) lineMark = false :=
    contains_false_of_part (List.take_prefix _ _).isInfix hm.1
  rw [removeStep_of_noMarker st L hc hm, removeScan_idle st L hl,
    callStart_of_index hi hpre hj, scanParens_start_close (index_some_startsWith hj) hbal]
  simp [hl]

/-- A line without comment marker that opens a call and does not close it, read outside
a comment and outside a call, is omitted and leaves the scanner inside the call. -/
theorem removeStep_opening (st : RemoveState) (L : Bytes) (i j : Nat)
    (hl : st.inConsoleLog = false) (hca : commentAfter st.inComment L = false)
    (hlc : startsWith (trimSpace L) lineMark = false)
    (hpre : contains (L.take i) lineMark = false)
    (hi : index L consoleLog = some i) (hj : index (L.drop i) (lit "(") = some j)
    (hbal : ∀ k, 0 < k → balance (((L.drop i).drop j).take k) ≠ 0) :
    removeStep st L =
      ({ inComment := false, inConsoleLog := true,
         parenCount := balance ((L.drop i).drop j), changed := true }, false) ∧
      0 < balance ((L.drop i).drop j) := by
  obtain ⟨hs, hpos⟩ := scanParens_start_open (index_some_startsWith hj) hbal
  refine ⟨?_, hpos⟩
  rw [removeStep_eq, hca, hlc]
  simp only [Bool.or_self, Bool.false_eq_true, if_false]
  rw [removeScan_idle { st with inComment := false } L hl, callStart_of_index hi hpre hj, hs]
  have : balance ((L.drop i).drop j) ≠ 0 := by omega
  simp only [List.drop_drop] at this ⊢
  simp [this]

/-- C2: a line `L` without comment marker whose first `console.log` is followed by a `(`
from which the parenthesis balance comes back to zero on `L`, between lines `pre` and
`post` that have neither `console.log` nor a comment marker, is omitted as a whole and
nothing else is: the result is the join of `pre ++ post`, with `changed = true`. -/
theorem C2_single_line_call_removed (pre post : List Bytes) (L path : Bytes) (i j : Nat)
    (hLF : ∀ l ∈ pre ++ L :: post, 10 ∉ l)
    (hmark : ∀ l ∈ pre ++ L :: post, noMarker l)
    (hplain : ∀ l ∈ pre ++ post, contains l consoleLog = false)
    (hi : index L consoleLog = some i)
    (hj : index (L.drop i) (lit "(") = some j)
    (hbal : ∃ k, 0 < k ∧ balance (((L.drop i).drop j).take k) = 0) :
    removeConsoleLog (joinLF (pre ++ L :: post)) path = (joinLF (pre ++ post), true) := by
  have hsplit : splitLF (joinLF (pre ++ L :: post)) = pre ++ L :: post :=
    splitLF_joinLF (by simp) hLF
  have hinit : RemoveState.init = ⟨false, false, 0, false⟩ := rfl
  have h1 : removeLoop ⟨false, false, 0, false⟩ [] pre = (pre, ⟨false, false, 0, false⟩) :=
    removeLoop_plain _ _ rfl rfl (fun l hl =>
      ⟨hmark l (by simp [hl]), hplain l (by simp [hl])⟩)
  have h2 : removeStep ⟨false, false, 0, false⟩ L = (⟨false, false, 0, true⟩, false) :=
    removeStep_single ⟨false, false, 0, false⟩ L i j rfl rfl (hmark L (by simp)) hi hj hbal
  have h3 : removeLoop ⟨false, false, 0, true⟩ [] post = (post, ⟨false, false, 0, true⟩) :=
    removeLoop_plain _ _ rfl rfl (fun l hl =>
      ⟨hmark l (by simp [hl]), hplain l (by simp [hl])⟩)
  rw [removeConsoleLog_eq, keptLines, hsplit, hinit, removeLoop_append, h1]
  simp only []
  rw [removeLoop_cons, h2]
  simp only []
  rw [h3]
  simp

/-- C2 at the line `console.log("a", f(1,2));` alone, with its nested call. -/
theorem C2_single_line_call_removed_witness :
    removeConsoleLog (joinLF ([] ++ lit "console.log(\"a\", f(1,2));" :: [])) (lit "a.js") =
      (joinLF ([] ++ []), true) :=
  C2_single_line_call_removed [] [] (lit "console.log(\"a\", f(1,2));") (lit "a.js") 0 11
    (by decide) (by
      intro l hl
      simp only [List.nil_append, List.mem_singleton] at hl
      subst hl
      exact ⟨by decide, by decide, by decide⟩)
    (by simp) (by decide) (by decide) ⟨14, by decide, by decide⟩

/-- C3: in a content without comment marker whose lines are `pre`, then a call made of
`first`, `mids` and `last`, then `post`, where `pre` and `post` have no `console.log`, the
first `console.log` of `first` is followed by a `(`, and the parenthesis balance counted
from that `(` is not zero anywhere on `first` and `mids` and comes to zero on `last`,
every line of the call is omitted and nothing else is. -/
theorem C3_multi_line_call_removed (c path : Bytes) (pre mids post : List Bytes)
    (first last : Bytes) (i j : Nat)
    (hc : splitLF c = pre ++ first :: (mids ++ last :: post))
    (hmark : noMarker c)
    (hplain : ∀ l ∈ pre ++ post, contains l consoleLog = false)
    (hi : index first consoleLog = some i)
    (hj : index (first.drop i) (lit "(") = some j)
    (hopen : ∀ k, 0 < k → balance ((((first.drop i).drop j) ++ mids.flatten).take k) ≠ 0)
    (hclose : ∃ k, balance (((first.drop i).drop j) ++ mids.flatten ++ last.take k) = 0) :
    removeConsoleLog c path = (joinLF (pre ++ post), true) := by
  have hline : ∀ l ∈ pre ++ first :: (mids ++ last :: post), noMarker l := fun l hl =>
    noMarker_of_part (infix_of_mem_splitLF (by rw [hc]; exact hl)) hmark
  have hx : lit "(" <+: (first.drop i).drop j := index_some_startsWith hj
  have hxlen : 0 < ((first.drop i).drop j).length := by
    obtain ⟨t, ht⟩ := hx
    rw [← ht]
    simp [lit]
  have hinit : RemoveState.init = ⟨false, false, 0, false⟩ := rfl
  have h1 : removeLoop ⟨false, false, 0, false⟩ [] pre = (pre, ⟨false, false, 0, false⟩) :=
    removeLoop_plain _ _ rfl rfl (fun l hl =>
      ⟨hline l (by simp [hl]), hplain l (by simp [hl])⟩)
  have hfirst : ∀ k, 0 < k → balance (((first.drop i).drop j).take k) ≠ 0 := by
    intro k hk
    by_cases hkl : k ≤ ((first.drop i).drop j).length
    · have := hopen k hk
      rwa [List.take_append_of_le_length hkl] at this
    · have := hopen ((first.drop i).drop j).length hxlen
      rw [List.take_append_of_le_length (le_refl _), List.take_length] at this
      rwa [List.take_of_length_le (by omega)]
  have hfm := hline first (by simp)
  obtain ⟨h2', hpos⟩ := removeStep_opening ⟨false, false, 0, false⟩ first i j rfl
    (commentAfter_false_of_no_open hfm.2.1) (not_lineComment_of_no_lineMark hfm.1)
    (contains_false_of_part (List.take_prefix _ _).isInfix hfm.1) hi hj hfirst
  have h2 : removeStep ⟨false, false, 0, false⟩ first =
      (⟨false, true, balance ((first.drop i).drop j), true⟩, false) := h2'
  obtain ⟨hcl, hcode, hfold⟩ := commentLines_of_noMarker mids (fun l hl =>
    hline l (by simp [hl]))
  have hmids : ∀ k, balance ((first.drop i).drop j) + balance (mids.flatten.take k) ≠ 0 := by
    intro k
    have := hopen (((first.drop i).drop j).length + k) (by omega)
    rwa [List.take_append, balance_append] at this
  have h3' := removeLoop_active ⟨false, true, balance ((first.drop i).drop j), true⟩
    mids rfl hpos rfl (by
      show ∀ k, balance ((first.drop i).drop j) +
        balance ((codeLines false mids).flatten.take k) ≠ 0
      rw [hcode]; exact hmids)
  have h3 : removeLoop ⟨false, true, balance ((first.drop i).drop j), true⟩ [] mids =
      ([], ⟨false, true, balance ((first.drop i).drop j) + balance mids.flatten, true⟩) := by
    rw [h3']
    simp only [hcl, hcode, hfold]
  have hpos2 := (scanParens_open hpos hmids).2
  have h4 : scanParens (balance ((first.drop i).drop j) + balance mids.flatten) last =
      (0, true) := by
    apply scanParens_close hpos2
    obtain ⟨k, hk⟩ := hclose
    refine ⟨k, ?_⟩
    rwa [balance_append, balance_append] at hk
  have h5 : removeLoop ⟨false, false, 0, true⟩ [] post = (post, ⟨false, false, 0, true⟩) :=
    removeLoop_plain _ _ rfl rfl (fun l hl =>
      ⟨hline l (by simp [hl]), hplain l (by simp [hl])⟩)
  have h6 : removeStep
      ⟨false, true, balance ((first.drop i).drop j) + balance mids.flatten, true⟩ last =
      (⟨false, false, 0, true⟩, false) := by
    rw [removeStep_of_noMarker _ _ rfl (hline last (by simp)), removeScan_active _ _ rfl]
    simp only [h4]
    rfl
  rw [removeConsoleLog_eq, keptLines, hc, hinit, removeLoop_append, h1]
  simp only []
  rw [removeLoop_cons, h2]
  simp only []
  rw [removeLoop_append, h3]
  simp only []
  rw [removeLoop_cons, h6]
  simp only []
  rw [h5]
  simp

/-- C3 at the three-line call of the specification. -/
theorem C3_multi_line_call_removed_witness :
    removeConsoleLog (lit "console.log(\n  \"value:\", x\n);") (lit "a.js") =
      (joinLF ([] ++ []), true) :=
  C3_multi_line_call_removed (lit "console.log(\n  \"value:\", x\n);") (lit "a.js")
    [] [lit "  \"value:\", x"] [] (lit "console.log(") (lit ");") 0 11
    (by decide) ⟨by decide, by decide, by decide⟩ (by simp) (by decide) (by decide)
    (by
      intro k hk
      have h : ((List.drop 11 (List.drop 0 (lit "console.log("))) ++
          List.flatten [lit "  \"value:\", x"]) = lit "(  \"value:\", x" := by decide
      rw [h]
      obtain ⟨n, rfl⟩ : ∃ n, k = n + 1 := ⟨k - 1, by omega⟩
      have h2 : lit "(  \"value:\", x" = 40 :: lit "  \"value:\", x" := by decide
      have h3 : ∀ m, balance (List.take m (lit "  \"value:\", x")) = 0 := by
        intro m
        have hall : ∀ b ∈ lit "  \"value:\", x", b ≠ 40 ∧ b ≠ 41 := by decide
        have hno : ∀ b ∈ List.take m (lit "  \"value:\", x"), b ≠ 40 ∧ b ≠ 41 :=
          fun b hb => hall b (List.mem_of_mem_take hb)
        unfold balance
        rw [List.count_eq_zero_of_not_mem (fun hm => (hno 40 hm).1 rfl),
          List.count_eq_zero_of_not_mem (fun hm => (hno 41 hm).2 rfl)]
        rfl
      rw [h2, List.take_succ_cons, balance_cons, h3]
      decide)
    ⟨1, by decide⟩

/-! ## Block comments in remove mode -/

/-- C5: on the one-line content `/* console.log(x) */` the two modes part: the line is
no record of `searchInContent`, and `removeConsoleLog` omits it, as it omits the line
that ends a block comment of several lines when a call stands on it. -/
theorem C5_block_comment_line_removed :
    removeConsoleLog (lit "/* console.log(x) */") (lit "a.js") = ([], true) ∧
    searchInContent (lit "/* console.log(x) */") (lit "a.js") = [] ∧
    removeConsoleLog (lit "/*\nconsole.log(x) */\nf();") (lit "a.js") =
      (lit "/*\nf();", true) ∧
    searchInContent (lit "/*\nconsole.log(x) */\nf();") (lit "a.js") = [] := by
  decide

/-! ## Running remove mode twice -/

theorem commentAfter_mono {b1 b2 : Bool} {l : Bytes} (h : b1 = true → b2 = true)
    (h1 : commentAfter b1 l = true) : commentAfter b2 l = true := by
  unfold commentAfter at h1 ⊢
  generalize contains l blockOpen = o at h1 ⊢
  generalize contains l blockClose = cl at h1 ⊢
  cases b1 <;> cases b2 <;> cases o <;> cases cl <;> simp_all

theorem removeScan_inComment (st : RemoveState) (l : Bytes) :
    (removeScan st l).1.inComment = st.inComment := by
  cases h : st.inConsoleLog
  · rw [removeScan_idle st l h]
    cases callStart l <;> simp [h]
  · rw [removeScan_active st l h]

theorem removeStep_inComment (st : RemoveState) (l : Bytes) :
    (removeStep st l).1.inComment = commentAfter st.inComment l := by
  rw [removeStep_eq]
  split
  · rfl
  · next h =>
    rw [removeScan_inComment]
    cases hc : commentAfter st.inComment l
    · rfl
    · simp [hc] at h

/-- An omitted line was read as code: the scanner is outside a comment after it. -/
theorem removeStep_omitted_inComment (st : RemoveState) (l : Bytes)
    (h : (removeStep st l).2 = false) : (removeStep st l).1.inComment = false := by
  rw [removeStep_eq] at h ⊢
  split
  · next hk => simp [hk] at h
  · rw [removeScan_inComment]

/-- A line read as code is kept only outside a call, when it starts none. -/
theorem removeScan_kept (st : RemoveState) (l : Bytes) (h : (removeScan st l).2 = true) :
    st.inConsoleLog = false ∧ callStart l = none := by
  cases hl : st.inConsoleLog
  · refine ⟨rfl, ?_⟩
    rw [removeScan_idle st l hl] at h
    cases hcs : callStart l
    · rfl
    · simp [hcs] at h
  · rw [removeScan_active st l hl] at h
    simp at h

/-- A line that one run keeps is kept by any run that reads it outside a call and is
inside a comment whenever the first one is. -/
theorem removeStep_kept_again (st1 st2 : RemoveState) (l : Bytes)
    (hk : (removeStep st1 l).2 = true) (h2 : st2.inConsoleLog = false)
    (hc : st1.inComment = true → st2.inComment = true) :
    removeStep st2 l = ({ st2 with inComment := commentAfter st2.inComment l }, true) ∧
      ((removeStep st1 l).1.inComment = true → commentAfter st2.inComment l = true) := by
  refine ⟨?_, fun h => commentAfter_mono hc (by rwa [removeStep_inComment] at h)⟩
  rw [removeStep_eq] at hk ⊢
  by_cases hk2 : (commentAfter st2.inComment l || startsWith (trimSpace l) lineMark) = true
  · simp [hk2]
  · simp only [hk2, Bool.false_eq_true, if_false]
    have hca2 : commentAfter st2.inComment l = false := by
      cases h : commentAfter st2.inComment l
      · rfl
      · simp [h] at hk2
    have hlc : startsWith (trimSpace l) lineMark = false := by
      cases h : startsWith (trimSpace l) lineMark
      · rfl
      · simp [h] at hk2
    have hca1 : commentAfter st1.inComment l = false := by
      cases h : commentAfter st1.inComment l
      · rfl
      · rw [commentAfter_mono hc h] at hca2
        cases hca2
    simp only [hca1, hlc, Bool.or_self, Bool.false_eq_true, if_false] at hk
    obtain ⟨_, hcs⟩ := removeScan_kept _ _ hk
    have hs := removeScan_idle { st2 with inComment := false } l h2
    rw [hcs] at hs
    rw [hs, hca2]

theorem removeLoop_again (st1 st2 : RemoveState) (ls : List Bytes)
    (h2 : st2.inConsoleLog = false) (hc : st1.inComment = true → st2.inComment = true) :
    (removeLoop st2 [] (removeLoop st1 [] ls).1).1 = (removeLoop st1 [] ls).1 ∧
      (removeLoop st2 [] (removeLoop st1 [] ls).1).2.changed = st2.changed := by
  induction ls generalizing st1 st2 with
  | nil => simp [removeLoop]
  | cons l ls ih =>
    rw [removeLoop_cons]
    cases hk : (removeStep st1 l).2
    · simp only [Bool.false_eq_true, if_false, List.nil_append]
      exact ih _ _ h2 (fun h => by
        rw [removeStep_omitted_inComment st1 l hk] at h; cases h)
    · simp only [if_true, List.singleton_append]
      obtain ⟨hs, hc2⟩ := removeStep_kept_again st1 st2 l hk h2 hc
      rw [removeLoop_cons, hs]
      simp only [if_true, List.singleton_append]
      obtain ⟨h3, h4⟩ := ih (removeStep st1 l).1
        { st2 with inComment := commentAfter st2.inComment l } h2 hc2
      rw [h3, h4]
      exact ⟨rfl, rfl⟩

theorem noLF_of_mem_keptLines {c l : Bytes} (h : l ∈ keptLines c) : 10 ∉ l :=
  noLF_of_mem_splitLF ((keptLines_sublist c).subset h)

/-- C6: remove mode is idempotent: run on the content it has returned, `removeConsoleLog`
returns that content with `changed = false`. -/
theorem C6_remove_idempotent (c path : Bytes) :
    removeConsoleLog (removeConsoleLog c path).1 path =
      ((removeConsoleLog c path).1, false) := by
  rw [removeConsoleLog_eq c path]
  simp only []
  by_cases hK : keptLines c = []
  · rw [hK]
    rfl
  · rw [removeConsoleLog_eq, keptLines,
      splitLF_joinLF hK (fun l hl => noLF_of_mem_keptLines hl)]
    obtain ⟨h1, h2⟩ := removeLoop_again RemoveState.init RemoveState.init (splitLF c) rfl
      (fun h => h)
    unfold keptLines
    rw [h1, h2]
    rfl

/-! ## The flag `changed` -/

/-- The flag is set exactly by the lines that are omitted. -/
theorem removeScan_changed (st : RemoveState) (l : Bytes) :
    (removeScan st l).1.changed = (st.changed || !(removeScan st l).2) := by
  cases h : st.inConsoleLog
  · rw [removeScan_idle st l h]
    cases callStart l <;> simp
  · rw [removeScan_active st l h]
    simp

theorem removeStep_changed (st : RemoveState) (l : Bytes) :
    (removeStep st l).1.changed = (st.changed || !(removeStep st l).2) := by
  rw [removeStep_eq]
  split
  · simp
  · rw [removeScan_changed]

theorem removeLoop_changed (st : RemoveState) (ls : List Bytes) :
    (removeLoop st [] ls).2.changed =
      (st.changed || decide ((removeLoop st [] ls).1.length < ls.length)) := by
  induction ls generalizing st with
  | nil => simp [removeLoop]
  | cons l ls ih =>
    have hle := (keptLines_sublist_aux (removeStep st l).1 ls).length_le
    rw [removeLoop_cons]
    simp only []
    rw [ih, removeStep_changed]
    cases hk : (removeStep st l).2
    · have : (removeLoop (removeStep st l).1 [] ls).1.length < ls.length + 1 := by omega
      simp [this]
    · simp

theorem changed_iff_omitted (c path : Bytes) :
    (removeConsoleLog c path).2 = true ↔ (keptLines c).length < (splitLF c).length := by
  rw [removeConsoleLog_eq]
  simp only []
  rw [removeLoop_changed]
  simp [keptLines, RemoveState.init]

theorem keptLines_nil : keptLines [] = [[]] := by decide

/-- The returned content is the content given exactly when no line was omitted. -/
theorem same_content_iff (c : Bytes) :
    joinLF (keptLines c) = c ↔ (keptLines c).length = (splitLF c).length := by
  constructor
  · intro h
    by_cases hK : keptLines c = []
    · rw [hK] at h
      have hc : c = [] := h.symm
      subst hc
      rw [keptLines_nil] at hK
      cases hK
    · have := splitLF_joinLF hK (fun l hl => noLF_of_mem_keptLines hl)
      rw [h] at this
      rw [← this]
  · intro h
    rw [(keptLines_sublist c).eq_of_length h, joinLF_splitLF]

/-- C9, as the code has it: `changed` is true exactly when a line was omitted, that is
when fewer lines were kept than the content has, and exactly when the returned content
differs from the content given; with `changed = false` the content comes back byte for
byte; with `changed = true` the returned content is the join of strictly fewer lines
than the content has, and it splits into strictly fewer lines unless every line was
omitted, in which case it is empty. -/
theorem C9_changed_exact (c path : Bytes) :
    (removeConsoleLog c path).1 = joinLF (keptLines c) ∧
    List.Sublist (keptLines c) (splitLF c) ∧
    ((removeConsoleLog c path).2 = true ↔ (keptLines c).length < (splitLF c).length) ∧
    ((removeConsoleLog c path).2 = true ↔ (removeConsoleLog c path).1 ≠ c) ∧
    ((removeConsoleLog c path).2 = false → (removeConsoleLog c path).1 = c) ∧
    ((removeConsoleLog c path).2 = true → keptLines c ≠ [] →
      (splitLF (removeConsoleLog c path).1).length < (splitLF c).length) ∧
    ((removeConsoleLog c path).2 = true → keptLines c = [] →
      (removeConsoleLog c path).1 = []) := by
  have hlen := (keptLines_sublist c).length_le
  have hiff := changed_iff_omitted c path
  have hsame := same_content_iff c
  have h1 : (removeConsoleLog c path).1 = joinLF (keptLines c) := rfl
  refine ⟨h1, keptLines_sublist c, hiff, ?_, ?_, ?_, ?_⟩
  · rw [hiff, h1, Ne, hsame]
    omega
  · intro h
    rw [h1, hsame]
    have : ¬ (keptLines c).length < (splitLF c).length := by
      rw [← hiff, h]; simp
    omega
  · intro h hK
    rw [h1, splitLF_joinLF hK (fun l hl => noLF_of_mem_keptLines hl)]
    exact hiff.1 h
  · intro _ hK
    rw [h1, hK]
    rfl

/-- C9 fails as stated at the one-line content `console.log(x)`: `changed` is true and
the returned content, the empty one, splits into one line, as many as the content given. -/
theorem C9_counterexample :
    ¬ ∀ c path : Bytes,
      ((removeConsoleLog c path).2 = true ↔ (keptLines c).length < (splitLF c).length) ∧
      ((removeConsoleLog c path).2 = true ↔ (removeConsoleLog c path).1 ≠ c) ∧
      ((removeConsoleLog c path).2 = false → (removeConsoleLog c path).1 = c) ∧
      ((removeConsoleLog c path).2 = true →
        (splitLF (removeConsoleLog c path).1).length < (splitLF c).length) := by
  intro h
  have h1 := (h (lit "console.log(x)") (lit "a.js")).2.2.2 (by decide)
  revert h1
  decide

/-! ## A call that is never closed -/

theorem bak_ne_nil : bak ≠ [] := by decide

theorem endsWith_append_bak (p : Bytes) : endsWith (p ++ bak) bak = true :=
  endsWith_iff.2 (List.suffix_append _ _)

theorem trimSuffix_append_bak (p : Bytes) : trimSuffix (p ++ bak) bak = p := by
  unfold trimSuffix
  rw [endsWith_append_bak, if_pos rfl]
  simp

theorem eq_append_bak_of_endsWith {q : Bytes} (h : endsWith q bak = true) :
    q = trimSuffix q bak ++ bak := by
  unfold trimSuffix
  rw [h, if_pos rfl]
  exact (List.suffix_iff_eq_append.1 (endsWith_iff.1 h)).symm

theorem ne_append_bak (p : Bytes) : p ≠ p ++ bak := by
  intro h
  exact bak_ne_nil (List.self_eq_append_right.1 h)

theorem filepathExt_append_bak (windows : Bool) (x : Bytes) :
    filepathExt windows (x ++ bak) = bak := by
  have hb : bak = [46, 98, 97, 107] := by decide
  rw [hb]
  cases windows <;> simp [filepathExt, extLoop, isPathSeparator]

/-- A file that passes the extension filter is no backup file. -/
theorem not_endsWith_bak_of_relevant {windows : Bool} {p : Bytes}
    (h : isRelevantFile windows p = true) : endsWith p bak = false := by
  by_contra hc
  rw [Bool.not_eq_false] at hc
  have hp := eq_append_bak_of_endsWith hc
  unfold isRelevantFile at h
  rw [hp, filepathExt_append_bak] at h
  have hl : decide (toLower bak ∈ relevantExts) = false := by decide
  simp only [hl] at h
  split_ifs at h

theorem osWriteFile_ok {sys : Sys} {fs : FS} {path content : Bytes}
    (h : (osWriteFile sys fs path content).2 = false) :
    (osWriteFile sys fs path content).1 = FS.store fs path content := by
  unfold osWriteFile at h ⊢
  split_ifs at h ⊢
  rfl

/-- A write, failed or not, leaves every other file as it was. -/
theorem osWriteFile_other (sys : Sys) (fs : FS) (path content q : Bytes) (hq : q ≠ path) :
    (osWriteFile sys fs path content).1 q = fs q := by
  unfold osWriteFile
  split_ifs <;> simp [FS.store, hq]

theorem osRemove_ok {sys : Sys} {fs : FS} {path : Bytes}
    (h : (osRemove sys fs path).2 = false) :
    (osRemove sys fs path).1 = FS.erase fs path := by
  unfold osRemove at h ⊢
  split_ifs at h ⊢
  rfl

theorem revertFile_other (sys : Sys) (fs : FS) (q : Bytes) (h : endsWith q bak = false) :
    revertFile sys fs q false none = (fs, none) := by
  simp [revertFile, h]

/-- A revert of the backup file `q` that returns no error has written the content of `q`
to the path without the suffix and removed `q`. -/
theorem revertFile_backup (sys : Sys) (fs : FS) (q d : Bytes) (h : endsWith q bak = true)
    (hd : fs q = some d) (hok : (revertFile sys fs q false none).2 = none) :
    (revertFile sys fs q false none).1 =
      FS.erase (FS.store fs (trimSuffix q bak) d) q := by
  unfold revertFile at hok ⊢
  simp only [Bool.false_eq_true, if_false, h, if_true, hd] at hok ⊢
  split_ifs at hok ⊢ with h1 h2 h3
  rw [Bool.not_eq_true] at h2 h3
  rw [osRemove_ok h3, osWriteFile_ok h2]

theorem revertWalk_cons_ok (sys : Sys) (g : FS) (q : Bytes) (ps : List Bytes)
    (h : (revertWalk sys g (q :: ps)).2 = none) :
    (revertFile sys g q false none).2 = none ∧
      revertWalk sys g (q :: ps) = revertWalk sys (revertFile sys g q false none).1 ps := by
  rw [revertWalk] at h ⊢
  generalize revertFile sys g q false none = r at h ⊢
  obtain ⟨f, e⟩ := r
  cases e with
  | none => exact ⟨rfl, rfl⟩
  | some e => cases h

/-- The revert walk over files that all exist, none of them the backup of the backup of
`p`, when it ends without error: when the backup of `p` holds `c` and is on the walk, or
when `p` holds `c` and has no backup, the walk ends with `c` in `p` and `p` without
backup. -/
theorem revertWalk_restores (sys : Sys) (p c : Bytes) (hp : endsWith p bak = false)
    (ps : List Bytes) (g : FS) (hnd : ps.Nodup) (hex : ∀ q ∈ ps, g q ≠ none)
    (hbb : p ++ bak ++ bak ∉ ps)
    (hst : (p ++ bak ∈ ps ∧ g (p ++ bak) = some c) ∨
      (p ++ bak ∉ ps ∧ g p = some c ∧ g (p ++ bak) = none))
    (hwalk : (revertWalk sys g ps).2 = none) :
    (revertWalk sys g ps).1 p = some c ∧ (revertWalk sys g ps).1 (p ++ bak) = none := by
  induction ps generalizing g with
  | nil =>
    rcases hst with ⟨h, _⟩ | ⟨_, h1, h2⟩
    · cases h
    · exact ⟨h1, h2⟩
  | cons q ps ih =>
    obtain ⟨hq, hnd2⟩ := List.nodup_cons.1 hnd
    have hbb2 : p ++ bak ++ bak ∉ ps := fun h => hbb (List.mem_cons_of_mem _ h)
    have hqbb : q ≠ p ++ bak ++ bak := fun h => hbb (by simp [h])
    obtain ⟨hstep, hrest⟩ := revertWalk_cons_ok sys g q ps hwalk
    rw [hrest] at hwalk ⊢
    cases hb : endsWith q bak
    · -- not a backup file: nothing happens
      have hqp : q ≠ p ++ bak := by
        intro h
        rw [h, endsWith_append_bak] at hb
        cases hb
      rw [revertFile_other sys g q hb] at hwalk ⊢
      refine ih g hnd2 (fun x hx => hex x (List.mem_cons_of_mem _ hx)) hbb2 ?_ hwalk
      rcases hst with ⟨h1, h2⟩ | ⟨h1, h2⟩
      · left
        rcases List.mem_cons.1 h1 with h | h
        · exact absurd h.symm hqp
        · exact ⟨h, h2⟩
      · right
        exact ⟨fun h => h1 (List.mem_cons_of_mem _ h), h2⟩
    · -- a backup file, which exists
      obtain ⟨d, hd⟩ := Option.ne_none_iff_exists'.1 (hex q (by simp))
      have hqa := eq_append_bak_of_endsWith hb
      have hpq : p ≠ q := by
        intro h
        rw [← h, hp] at hb
        cases hb
      have hpa : p ++ bak ≠ trimSuffix q bak := by
        intro h
        apply hqbb
        rw [hqa, ← h]
      rw [revertFile_backup sys g q d hb hd hstep] at hwalk ⊢
      refine ih _ hnd2 ?_ hbb2 ?_ hwalk
      · intro x hx
        have hxq : x ≠ q := fun h => hq (h ▸ hx)
        have := hex x (List.mem_cons_of_mem _ hx)
        simp only [FS.erase, FS.store, hxq, if_false]
        split_ifs
        · simp
        · exact this
      · rcases hst with ⟨h1, h2⟩ | ⟨h1, h2, h3⟩
        · by_cases hqp : q = p ++ bak
          · right
            subst hqp
            rw [hd] at h2
            cases h2
            refine ⟨hq, ?_, ?_⟩
            · simp [FS.erase, FS.store, trimSuffix_append_bak, bak_ne_nil]
            · simp [FS.erase]
          · left
            rcases List.mem_cons.1 h1 with h | h
            · exact absurd h.symm hqp
            · refine ⟨h, ?_⟩
              simp only [FS.erase, FS.store, Ne.symm hqp, hpa, if_false]
              exact h2
        · right
          have hqp : q ≠ p ++ bak := fun h => h1 (by simp [h])
          have hpt : p ≠ trimSuffix q bak := by
            intro h
            apply hqp
            rw [hqa, ← h]
          refine ⟨fun h => h1 (List.mem_cons_of_mem _ h), ?_, ?_⟩
          · simp only [FS.erase, FS.store, hpq, hpt, if_false]
            exact h2
          · simp only [FS.erase, FS.store, Ne.symm hqp, hpa, if_false]
            exact h3

/-- The run of `processFile` in delete mode on a relevant file that holds `c`, call by
call. -/
theorem processFile_delete (sys : Sys) (windows : Bool) (fs : FS) (p c : Bytes)
    (hfs : fs p = some c) (hskip : shouldSkipPath windows p = false)
    (hrel : isRelevantFile windows p = true) :
    processFile sys windows fs p false none true =
      if sys.openFails fs p = true then (fs, [], some WalkErr.opening)
      else if sys.readFails fs p = true then (fs, [], some WalkErr.reading)
      else if (removeConsoleLog c p).2 = true then
        if (osWriteFile sys fs (p ++ bak) c).2 = true then
          ((osWriteFile sys fs (p ++ bak) c).1, [], some WalkErr.creatingBackup)
        else if (osWriteFile sys (osWriteFile sys fs (p ++ bak) c).1 p
            (removeConsoleLog c p).1).2 = true then
          ((osWriteFile sys (osWriteFile sys fs (p ++ bak) c).1 p (removeConsoleLog c p).1).1,
            [], some WalkErr.writing)
        else
          ((osWriteFile sys (osWriteFile sys fs (p ++ bak) c).1 p (removeConsoleLog c p).1).1,
            [], none)
      else (fs, [], none) := by
  unfold processFile
  simp only [hskip, hrel, hfs, Bool.false_eq_true, if_false, Bool.not_true, if_true]

/-- A run of `processFile` in delete mode that finds a change and returns no error has
written `c` to the backup and the stripped content to the file. -/
theorem processFile_delete_done (sys : Sys) (windows : Bool) (fs : FS) (p c : Bytes)
    (hfs : fs p = some c) (hskip : shouldSkipPath windows p = false)
    (hrel : isRelevantFile windows p = true) (hch : (removeConsoleLog c p).2 = true)
    (hok : (processFile sys windows fs p false none true).2.2 = none) :
    (processFile sys windows fs p false none true).1 =
      FS.store (FS.store fs (p ++ bak) c) p (removeConsoleLog c p).1 := by
  rw [processFile_delete sys windows fs p c hfs hskip hrel] at hok ⊢
  rw [if_pos hch] at hok ⊢
  split_ifs at hok ⊢ with h1 h2 h3 h4
  rw [Bool.not_eq_true] at h3 h4
  show (osWriteFile sys (osWriteFile sys fs (p ++ bak) c).1 p (removeConsoleLog c p).1).1 = _
  rw [osWriteFile_ok h4, osWriteFile_ok h3]

/-- A run of `processFile` in delete mode that fails in the write of the backup has not
touched the file. -/
theorem processFile_delete_backup_failed (sys : Sys) (windows : Bool) (fs : FS) (p c : Bytes)
    (hfs : fs p = some c) (hskip : shouldSkipPath windows p = false)
    (hrel : isRelevantFile windows p = true)
    (herr : (processFile sys windows fs p false none true).2.2 =
      some WalkErr.creatingBackup) :
    (processFile sys windows fs p false none true).1 p = some c := by
  rw [processFile_delete sys windows fs p c hfs hskip hrel] at herr ⊢
  by_cases h1 : sys.openFails fs p = true
  · rw [if_pos h1] at herr
    cases herr
  rw [if_neg h1] at herr ⊢
  by_cases h2 : sys.readFails fs p = true
  · rw [if_pos h2] at herr
    cases herr
  rw [if_neg h2] at herr ⊢
  by_cases h3 : (removeConsoleLog c p).2 = true
  · rw [if_pos h3] at herr ⊢
    by_cases h4 : (osWriteFile sys fs (p ++ bak) c).2 = true
    · rw [if_pos h4]
      show (osWriteFile sys fs (p ++ bak) c).1 p = some c
      rw [osWriteFile_other sys fs (p ++ bak) c p (ne_append_bak p)]
      exact hfs
    · rw [if_neg h4] at herr
      split_ifs at herr
      cases herr
  · rw [if_neg h3] at herr
    cases herr

/-- A run of `processFile` in delete mode that fails in the write of the file has
written `c` to the backup. -/
theorem processFile_delete_write_failed (sys : Sys) (windows : Bool) (fs : FS) (p c : Bytes)
    (hfs : fs p = some c) (hskip : shouldSkipPath windows p = false)
    (hrel : isRelevantFile windows p = true)
    (herr : (processFile sys windows fs p false none true).2.2 = some WalkErr.writing) :
    (processFile sys windows fs p false none true).1 (p ++ bak) = some c := by
  rw [processFile_delete sys windows fs p c hfs hskip hrel] at herr ⊢
  by_cases h1 : sys.openFails fs p = true
  · rw [if_pos h1] at herr
    cases herr
  rw [if_neg h1] at herr ⊢
  by_cases h2 : sys.readFails fs p = true
  · rw [if_pos h2] at herr
    cases herr
  rw [if_neg h2] at herr ⊢
  by_cases h3 : (removeConsoleLog c p).2 = true
  · rw [if_pos h3] at herr ⊢
    by_cases h4 : (osWriteFile sys fs (p ++ bak) c).2 = true
    · rw [if_pos h4] at herr
      cases herr
    · rw [if_neg h4] at herr ⊢
      rw [Bool.not_eq_true] at h4
      have hb : (osWriteFile sys (osWriteFile sys fs (p ++ bak) c).1 p
          (removeConsoleLog c p).1).1 (p ++ bak) = some c := by
        rw [osWriteFile_other sys _ p _ (p ++ bak) (fun h => ne_append_bak p h.symm),
          osWriteFile_ok h4]
        simp [FS.store]
      split_ifs <;> exact hb
  · rw [if_neg h3] at herr
    cases herr

/-- After a run of `processFile` in delete mode that did not fail in the write of the
backup, on a file `p` that holds `c` and has neither a backup nor a backup of the backup:
there is no backup of the backup, and either the backup holds `c`, or `p` holds `c` and
has no backup. -/
theorem processFile_delete_state (sys : Sys) (windows : Bool) (fs : FS) (p c : Bytes)
    (hfs : fs p = some c) (hskip : shouldSkipPath windows p = false)
    (hrel : isRelevantFile windows p = true)
    (hbak : fs (p ++ bak) = none) (hbb : fs (p ++ bak ++ bak) = none)
    (hok : (processFile sys windows fs p false none true).2.2 ≠
      some WalkErr.creatingBackup) :
    (processFile sys windows fs p false none true).1 (p ++ bak ++ bak) = none ∧
    ((processFile sys windows fs p false none true).1 (p ++ bak) = some c ∨
      ((processFile sys windows fs p false none true).1 p = some c ∧
        (processFile sys windows fs p false none true).1 (p ++ bak) = none)) := by
  have hne1 : p ++ bak ≠ p := fun h => ne_append_bak p h.symm
  have hne2 : p ++ bak ++ bak ≠ p := by
    intro h
    have := congrArg List.length h
    simp only [List.length_append] at this
    have : bak.length = 4 := by decide
    omega
  have hne3 : p ++ bak ++ bak ≠ p ++ bak := fun h => ne_append_bak (p ++ bak) h.symm
  rw [processFile_delete sys windows fs p c hfs hskip hrel] at hok ⊢
  by_cases h1 : sys.openFails fs p = true
  · rw [if_pos h1]
    exact ⟨hbb, Or.inr ⟨hfs, hbak⟩⟩
  rw [if_neg h1] at hok ⊢
  by_cases h2 : sys.readFails fs p = true
  · rw [if_pos h2]
    exact ⟨hbb, Or.inr ⟨hfs, hbak⟩⟩
  rw [if_neg h2] at hok ⊢
  by_cases h3 : (removeConsoleLog c p).2 = true
  · rw [if_pos h3] at hok ⊢
    by_cases h4 : (osWriteFile sys fs (p ++ bak) c).2 = true
    · rw [if_pos h4] at hok
      exact absurd rfl hok
    · rw [if_neg h4]
      rw [Bool.not_eq_true] at h4
      have hb : (osWriteFile sys (osWriteFile sys fs (p ++ bak) c).1 p
          (removeConsoleLog c p).1).1 (p ++ bak ++ bak) = none ∧
          (osWriteFile sys (osWriteFile sys fs (p ++ bak) c).1 p
            (removeConsoleLog c p).1).1 (p ++ bak) = some c := by
        rw [osWriteFile_other sys _ p _ (p ++ bak ++ bak) hne2,
          osWriteFile_other sys _ p _ (p ++ bak) hne1, osWriteFile_ok h4]
        refine ⟨?_, ?_⟩
        · simp only [FS.store, hne3, if_false]
          exact hbb
        · simp [FS.store]
      split_ifs <;> exact ⟨hb.1, Or.inl hb.2⟩
  · rw [if_neg h3]
    exact ⟨hbb, Or.inr ⟨hfs, hbak⟩⟩

/-- C7, as the code has it, on the file system as a map from paths to contents and an
operating system `sys` whose calls may fail: for a file `p` that holds `c`, is not
skipped, is relevant and has neither a backup `p.bak` nor a file `p.bak.bak`, when
`processFile` in delete mode does not fail in the write of the backup and the revert walk
over the files that then exist, every backup file among them, returns no error, the walk
ends with `p` holding `c` and `p.bak` absent. When `removeConsoleLog` reports a change,
stripping the suffix from `p.bak` gives `p` and, whichever calls fail: a run of
`processFile` without error leaves `c` in `p.bak` and the stripped content in `p`; a run
that fails in the write of the backup leaves `c` in `p`, so `p` is not overwritten before
the backup is written; a run that fails in the write of `p` leaves `c` in `p.bak`, so the
backup is written before `p` is. -/
theorem C7_remove_then_revert (sys : Sys) (windows : Bool) (fs : FS) (p c : Bytes)
    (ps : List Bytes)
    (hfs : fs p = some c) (hskip : shouldSkipPath windows p = false)
    (hrel : isRelevantFile windows p = true)
    (hbak : fs (p ++ bak) = none) (hbb : fs (p ++ bak ++ bak) = none)
    (hok : (processFile sys windows fs p false none true).2.2 ≠
      some WalkErr.creatingBackup)
    (hnd : ps.Nodup)
    (hex : ∀ q ∈ ps, (processFile sys windows fs p false none true).1 q ≠ none)
    (hall : ∀ q, (processFile sys windows fs p false none true).1 q ≠ none →
      endsWith q bak = true → q ∈ ps)
    (hwalk : (revertWalk sys (processFile sys windows fs p false none true).1 ps).2 = none) :
    (revertWalk sys (processFile sys windows fs p false none true).1 ps).1 p = some c ∧
    (revertWalk sys (processFile sys windows fs p false none true).1 ps).1 (p ++ bak) = none ∧
    ((removeConsoleLog c p).2 = true →
      trimSuffix (p ++ bak) bak = p ∧
      ∀ sys1 : Sys,
        ((processFile sys1 windows fs p false none true).2.2 = none →
          (processFile sys1 windows fs p false none true).1 =
            FS.store (FS.store fs (p ++ bak) c) p (removeConsoleLog c p).1 ∧
          (processFile sys1 windows fs p false none true).1 (p ++ bak) = some c) ∧
        ((processFile sys1 windows fs p false none true).2.2 = some WalkErr.creatingBackup →
          (processFile sys1 windows fs p false none true).1 p = some c) ∧
        ((processFile sys1 windows fs p false none true).2.2 = some WalkErr.writing →
          (processFile sys1 windows fs p false none true).1 (p ++ bak) = some c)) := by
  have hp := not_endsWith_bak_of_relevant hrel
  obtain ⟨hbb1, hst⟩ := processFile_delete_state sys windows fs p c hfs hskip hrel hbak hbb hok
  have hbbps : p ++ bak ++ bak ∉ ps := fun h => hex _ h hbb1
  have hst2 : (p ++ bak ∈ ps ∧
      (processFile sys windows fs p false none true).1 (p ++ bak) = some c) ∨
      (p ++ bak ∉ ps ∧ (processFile sys windows fs p false none true).1 p = some c ∧
        (processFile sys windows fs p false none true).1 (p ++ bak) = none) := by
    rcases hst with h | ⟨h1, h2⟩
    · exact Or.inl ⟨hall _ (by rw [h]; simp) (endsWith_append_bak p), h⟩
    · exact Or.inr ⟨fun h => hex _ h h2, h1, h2⟩
  obtain ⟨r1, r2⟩ := revertWalk_restores sys p c hp ps _ hnd hex hbbps hst2 hwalk
  refine ⟨r1, r2, fun hch => ⟨trimSuffix_append_bak p, fun sys1 => ⟨fun h => ?_,
    processFile_delete_backup_failed sys1 windows fs p c hfs hskip hrel,
    processFile_delete_write_failed sys1 windows fs p c hfs hskip hrel⟩⟩⟩
  have hd := processFile_delete_done sys1 windows fs p c hfs hskip hrel hch h
  refine ⟨hd, ?_⟩
  rw [hd]
  simp [FS.store, bak_ne_nil]

/-- C7 at a file system that holds the one script `a.js` with a call to remove, on an
operating system on which no call fails. -/
theorem C7_remove_then_revert_witness :
    (revertWalk Sys.reliable
      (processFile Sys.reliable false oneScriptFS (lit "a.js") false none true).1
      [lit "a.js", lit "a.js.bak"]).1 (lit "a.js") = some (lit "console.log(x)") ∧
    (revertWalk Sys.reliable
      (processFile Sys.reliable false oneScriptFS (lit "a.js") false none true).1
      [lit "a.js", lit "a.js.bak"]).1 (lit "a.js" ++ bak) = none := by
  have hch : (removeConsoleLog (lit "console.log(x)") (lit "a.js")).2 = true := by decide
  have hfs1 := processFile_delete_done Sys.reliable false oneScriptFS (lit "a.js")
    (lit "console.log(x)") (by decide) (by decide) (by decide) hch (by decide)
  have h := C7_remove_then_revert Sys.reliable false oneScriptFS (lit "a.js")
    (lit "console.log(x)") [lit "a.js", lit "a.js.bak"] (by decide) (by decide) (by decide)
    (by decide) (by decide) (by decide) (by decide) (by decide) (by
      intro q hq _
      by_contra hnin
      apply hq
      have h1 : q ≠ lit "a.js" := fun h => hnin (by simp [h])
      have h2 : q ≠ lit "a.js" ++ bak := fun h => hnin (by rw [h]; decide)
      rw [hfs1]
      simp [FS.store, oneScriptFS, h1, h2]) (by decide)
  exact ⟨h.1, h.2.1⟩

/-- C7 fails as stated, in four ways. With the file `a.js.bak.bak` next to `a.js`, and no
call failing, the walk leaves the content of `a.js.bak.bak` in `a.js.bak`. With a file
named `.bak` on the walk before `a.js.bak`, its revert writes to the empty path, the walk
ends there with the error and `a.js` stays stripped. When the write of the backup fails
and leaves an empty `a.js.bak`, the walk puts the empty content into `a.js`. When the
file cannot be opened, the scanner would report a change on its content and no backup is
written. -/
theorem C7_counterexample :
    (¬ ∀ (sys : Sys) (windows : Bool) (fs : FS) (p c : Bytes) (ps : List Bytes),
      fs p = some c → shouldSkipPath windows p = false → isRelevantFile windows p = true →
      fs (p ++ bak) = none →
      (processFile sys windows fs p false none true).2.2 = none →
      ps.Nodup →
      (∀ q ∈ ps, (processFile sys windows fs p false none true).1 q ≠ none) →
      (∀ q, (processFile sys windows fs p false none true).1 q ≠ none →
        endsWith q bak = true → q ∈ ps) →
      (revertWalk sys (processFile sys windows fs p false none true).1 ps).2 = none →
      (revertWalk sys (processFile sys windows fs p false none true).1 ps).1 p = some c ∧
      (revertWalk sys (processFile sys windows fs p false none true).1 ps).1 (p ++ bak) =
        none) ∧
    (¬ ∀ (sys : Sys) (windows : Bool) (fs : FS) (p c : Bytes) (ps : List Bytes),
      fs p = some c → shouldSkipPath windows p = false → isRelevantFile windows p = true →
      fs (p ++ bak) = none → fs (p ++ bak ++ bak) = none →
      (processFile sys windows fs p false none true).2.2 = none →
      ps.Nodup →
      (∀ q ∈ ps, (processFile sys windows fs p false none true).1 q ≠ none) →
      (∀ q, (processFile sys windows fs p false none true).1 q ≠ none →
        endsWith q bak = true → q ∈ ps) →
      (revertWalk sys (processFile sys windows fs p false none true).1 ps).1 p = some c ∧
      (revertWalk sys (processFile sys windows fs p false none true).1 ps).1 (p ++ bak) =
        none) ∧
    (¬ ∀ (sys : Sys) (windows : Bool) (fs : FS) (p c : Bytes) (ps : List Bytes),
      fs p = some c → shouldSkipPath windows p = false → isRelevantFile windows p = true →
      fs (p ++ bak) = none → fs (p ++ bak ++ bak) = none →
      ps.Nodup →
      (∀ q ∈ ps, (processFile sys windows fs p false none true).1 q ≠ none) →
      (∀ q, (processFile sys windows fs p false none true).1 q ≠ none →
        endsWith q bak = true → q ∈ ps) →
      (revertWalk sys (processFile sys windows fs p false none true).1 ps).2 = none →
      (revertWalk sys (processFile sys windows fs p false none true).1 ps).1 p = some c ∧
      (revertWalk sys (processFile sys windows fs p false none true).1 ps).1 (p ++ bak) =
        none) ∧
    (¬ ∀ (sys : Sys) (windows : Bool) (fs : FS) (p c : Bytes),
      fs p = some c → shouldSkipPath windows p = false → isRelevantFile windows p = true →
      fs (p ++ bak) = none → (removeConsoleLog c p).2 = true →
      (processFile sys windows fs p false none true).1 (p ++ bak) = some c) := by
  have hch : (removeConsoleLog (lit "console.log(x)") (lit "a.js")).2 = true := by decide
  refine ⟨fun h => ?_, fun h => ?_, fun h => ?_, fun h => ?_⟩
  · -- a backup of the backup
    have hfs1 := processFile_delete_done Sys.reliable false backupOfBackupFS (lit "a.js")
      (lit "console.log(x)") (by decide) (by decide) (by decide) hch (by decide)
    have h1 := h Sys.reliable false backupOfBackupFS (lit "a.js") (lit "console.log(x)")
      [lit "a.js", lit "a.js.bak", lit "a.js.bak.bak"] (by decide) (by decide) (by decide)
      (by decide) (by decide) (by decide) (by decide) (by
        intro q hq _
        by_contra hnin
        apply hq
        have h1 : q ≠ lit "a.js" := fun h => hnin (by simp [h])
        have h2 : q ≠ lit "a.js" ++ bak := fun h => hnin (by rw [h]; decide)
        have h3 : q ≠ lit "a.js.bak.bak" := fun h => hnin (by simp [h])
        rw [hfs1]
        simp [FS.store, backupOfBackupFS, h1, h2, h3]) (by decide)
    have h2 : (revertWalk Sys.reliable
        (processFile Sys.reliable false backupOfBackupFS (lit "a.js") false none true).1
        [lit "a.js", lit "a.js.bak", lit "a.js.bak.bak"]).1 (lit "a.js" ++ bak) =
        some (lit "z") := by decide
    rw [h2] at h1
    exact absurd h1.2 (by simp)
  · -- a file named `.bak`
    have hfs1 := processFile_delete_done Sys.reliable false dotBakFS (lit "a.js")
      (lit "console.log(x)") (by decide) (by decide) (by decide) hch (by decide)
    have h1 := h Sys.reliable false dotBakFS (lit "a.js") (lit "console.log(x)")
      [lit ".bak", lit "a.js", lit "a.js.bak"] (by decide) (by decide) (by decide)
      (by decide) (by decide) (by decide) (by decide) (by decide) (by
        intro q hq _
        by_contra hnin
        apply hq
        have h1 : q ≠ lit "a.js" := fun h => hnin (by simp [h])
        have h2 : q ≠ lit "a.js" ++ bak := fun h => hnin (by rw [h]; decide)
        have h3 : q ≠ lit ".bak" := fun h => hnin (by simp [h])
        rw [hfs1]
        simp [FS.store, dotBakFS, h1, h2, h3])
    have h2 : (revertWalk Sys.reliable
        (processFile Sys.reliable false dotBakFS (lit "a.js") false none true).1
        [lit ".bak", lit "a.js", lit "a.js.bak"]).1 (lit "a.js") = some [] := by decide
    rw [h2] at h1
    exact absurd h1.1 (by decide)
  · -- the write of the backup fails
    have hfs1 : (processFile Sys.backupWriteFails false oneScriptFS (lit "a.js") false none
        true).1 = fun q => if q = lit "a.js" ++ bak then some [] else oneScriptFS q := by
      rw [processFile_delete Sys.backupWriteFails false oneScriptFS (lit "a.js")
        (lit "console.log(x)") (by decide) (by decide) (by decide)]
      rfl
    have h1 := h Sys.backupWriteFails false oneScriptFS (lit "a.js") (lit "console.log(x)")
      [lit "a.js", lit "a.js.bak"] (by decide) (by decide) (by decide)
      (by decide) (by decide) (by decide) (by decide) (by
        intro q hq _
        by_contra hnin
        apply hq
        have h1 : q ≠ lit "a.js" := fun h => hnin (by simp [h])
        have h2 : q ≠ lit "a.js" ++ bak := fun h => hnin (by rw [h]; decide)
        rw [hfs1]
        simp [oneScriptFS, h1, h2]) (by decide)
    have h2 : (revertWalk Sys.backupWriteFails
        (processFile Sys.backupWriteFails false oneScriptFS (lit "a.js") false none true).1
        [lit "a.js", lit "a.js.bak"]).1 (lit "a.js") = some [] := by decide
    rw [h2] at h1
    exact absurd h1.1 (by decide)
  · -- the file cannot be opened
    have h1 := h Sys.openFailing false oneScriptFS (lit "a.js") (lit "console.log(x)")
      (by decide) (by decide) (by decide) (by decide) hch
    have h2 : (processFile Sys.openFailing false oneScriptFS (lit "a.js") false none true).1
        (lit "a.js" ++ bak) = none := by decide
    rw [h2] at h1
    cases h1

/-- C8: the content that `removeConsoleLog` returns is the join, by line feed, of a
sublist of the lines of the content it was given: lines are kept in their order and
byte for byte, and an omitted line leaves nothing in its place. -/
theorem C8_whole_lines_only (c path : Bytes) :
    ∃ K : List Bytes, List.Sublist K (splitLF c) ∧ (removeConsoleLog c path).1 = joinLF K :=
  ⟨keptLines c, keptLines_sublist c, rfl⟩

/-! ## The path filter -/

theorem shouldSkipPath_iff (windows : Bool) (p : Bytes) :
    shouldSkipPath windows p = true ↔ ∃ pat ∈ skipPatterns, pat <:+: toSlash windows p := by
  unfold shouldSkipPath
  simp only [List.any_eq_true, contains_iff]

theorem toSlash_append (windows : Bool) (d s : Bytes) :
    toSlash windows (d ++ s) = toSlash windows d ++ toSlash windows s := by
  cases windows <;> simp [toSlash]

theorem shouldSkipPath_append (windows : Bool) (d s : Bytes)
    (h : shouldSkipPath windows d = true) : shouldSkipPath windows (d ++ s) = true := by
  rw [shouldSkipPath_iff] at h ⊢
  obtain ⟨pat, hp, hin⟩ := h
  refine ⟨pat, hp, ?_⟩
  rw [toSlash_append]
  exact hin.trans (List.prefix_append _ _).isInfix

theorem processFile_skipped (sys : Sys) (windows : Bool) (fs : FS) (p : Bytes)
    (isDir del : Bool)
    (h : shouldSkipPath windows p = true) :
    processFile sys windows fs p isDir none del =
      (fs, [], if isDir then some WalkErr.skipDir else none) := by
  simp [processFile, h]

/-- C13: `shouldSkipPath` holds of a path exactly when an entry of `skipPatterns` occurs
in the path with its separators turned into `/`; so, for a skipped path `d`, every path
`d ++ s` is skipped, and `processFile` returns on it without reading or writing a file;
and every path in which `node_modules` occurs is skipped. -/
theorem C13_skip_closed_under_extension (windows : Bool) (d s : Bytes)
    (h : shouldSkipPath windows d = true) :
    (∀ p, shouldSkipPath windows p = true ↔
      ∃ pat ∈ skipPatterns, pat <:+: toSlash windows p) ∧
    shouldSkipPath windows (d ++ s) = true ∧
    (∀ (sys : Sys) (fs : FS) (isDir del : Bool),
      processFile sys windows fs (d ++ s) isDir none del =
        (fs, [], if isDir then some WalkErr.skipDir else none)) ∧
    (∀ p, lit "node_modules" <:+: p → shouldSkipPath windows p = true) := by
  refine ⟨shouldSkipPath_iff windows, shouldSkipPath_append windows d s h,
    fun sys fs isDir del => processFile_skipped sys windows fs _ isDir del
      (shouldSkipPath_append windows d s h), ?_⟩
  intro p hp
  rw [shouldSkipPath_iff]
  refine ⟨lit "node_modules", by decide, ?_⟩
  cases windows
  · exact hp
  · have := List.IsInfix.map (fun b => if b = 92 then 47 else b) hp
    have hm : List.map (fun b => if b = 92 then 47 else b) (lit "node_modules") =
        lit "node_modules" := by decide
    rw [hm] at this
    simpa [toSlash] using this

/-- C13 at the directory `a/node_modules` and the file `b.js` beneath it. -/
theorem C13_skip_closed_under_extension_witness :
    shouldSkipPath false (lit "a/node_modules" ++ lit "/b.js") = true :=
  (C13_skip_closed_under_extension false (lit "a/node_modules") (lit "/b.js")
    (by decide)).2.1

theorem isPathSeparator_dot (windows : Bool) : isPathSeparator windows 46 = false := by
  cases windows <;> decide

theorem extLoop_eq (windows : Bool) (rev acc : Bytes) :
    extLoop windows rev acc =
      if 46 ∈ rev.takeWhile (fun b => !isPathSeparator windows b) then
        46 :: ((rev.takeWhile (fun b => !isPathSeparator windows b)).takeWhile
          (fun b => !decide (b = 46))).reverse ++ acc
      else [] := by
  induction rev generalizing acc with
  | nil => simp [extLoop]
  | cons b rev ih =>
    rw [extLoop]
    by_cases hs : isPathSeparator windows b = true
    · simp [hs]
    · by_cases hb : b = 46
      · subst hb
        simp [hs]
      · rw [ih]
        have hne : ¬ (46 = b) := fun h => hb h.symm
        simp [hs, hb, hne]

/-- `filepath.Ext` gives the part of the last element of the path from its last dot. -/
theorem filepathExt_eq (windows : Bool) (p : Bytes) :
    filepathExt windows p = dotSuffix (lastElement windows p) := by
  unfold filepathExt dotSuffix lastElement
  rw [extLoop_eq]
  simp

/-- C14: `isRelevantFile` holds of a path exactly when the extension of the path, which
is the part of its last element from the last dot on, is in lower case one of `.js`,
`.jsx`, `.ts`, `.tsx`, `.vue`, `.mjs`, `.cjs`, `.html`, `.md`, and neither `-min` nor
`.min` occurs in the path; `A.JS` is relevant, `app.min.js` and `x.css` are not. -/
theorem C14_extension_filter (windows : Bool) (p : Bytes) :
    (isRelevantFile windows p = true ↔
      (toLower (dotSuffix (lastElement windows p)) ∈
          [lit ".js", lit ".jsx", lit ".ts", lit ".tsx", lit ".vue", lit ".mjs", lit ".cjs",
           lit ".html", lit ".md"] ∧
        contains p (lit "-min") = false ∧ contains p (lit ".min") = false)) ∧
    isRelevantFile windows (lit "A.JS") = true ∧
    isRelevantFile windows (lit "app.min.js") = false ∧
    isRelevantFile windows (lit "x.css") = false := by
  refine ⟨?_, by cases windows <;> decide, by cases windows <;> decide,
    by cases windows <;> decide⟩
  have hl : relevantExts = [lit ".js", lit ".jsx", lit ".ts", lit ".tsx", lit ".vue",
      lit ".mjs", lit ".cjs", lit ".html", lit ".md"] := rfl
  unfold isRelevantFile
  rw [filepathExt_eq, hl]
  cases h1 : contains p (lit "-min") <;> cases h2 : contains p (lit ".min") <;> simp

/-- C20: a path that ends in `.bak` is not relevant, so `processFile`, in report mode and
in remove mode, returns on it with the file system as it was and nothing printed: it
reads no backup file and writes no `.bak.bak` file. -/
theorem C20_backup_not_scanned (windows : Bool) (p : Bytes) :
    isRelevantFile windows (p ++ bak) = false ∧
    ∀ (sys : Sys) (fs : FS) (isDir : Bool) (err : Option WalkErr) (del : Bool),
      (processFile sys windows fs (p ++ bak) isDir err del).1 = fs ∧
      (processFile sys windows fs (p ++ bak) isDir err del).2.1 = [] := by
  have hrel : isRelevantFile windows (p ++ bak) = false := by
    cases h : isRelevantFile windows (p ++ bak)
    · rfl
    · have := not_endsWith_bak_of_relevant h
      rw [endsWith_append_bak] at this
      cases this
  refine ⟨hrel, ?_⟩
  intro sys fs isDir err del
  unfold processFile
  cases err with
  | some e => exact ⟨rfl, rfl⟩
  | none =>
    by_cases hs : shouldSkipPath windows (p ++ bak) = true <;> cases isDir <;>
      simp [hs, hrel]

/-! ## Where the two modes part on comments -/

/-- C16: on the content `// /*` then `console.log(x);` the two modes part: in
`searchInContent` the first line opens no block comment and the call on line 2 is a
record, whereas in `removeConsoleLog` the first line opens a block comment, the second
line is kept and `changed` is false. -/
theorem C16_line_comment_opens_block_in_remove :
    searchInContent (lit "// /*\nconsole.log(x);") (lit "a.js") =
      [MatchRecord.line (lit "a.js") 2 (lit "console.log(x);")] ∧
    removeConsoleLog (lit "// /*\nconsole.log(x);") (lit "a.js") =
      (lit "// /*\nconsole.log(x);", false) ∧
    (removeStep RemoveState.init (lit "// /*")).1.inComment = true ∧
    (searchStep (lit "a.js") SearchState.init 0 (lit "// /*")).1.inComment = false := by
  decide

/-- C17: on the content `/*` then `*/ console.log(x);` the two modes part:
`searchInContent` passes over the line that ends the comment and prints no record,
whereas `removeConsoleLog` scans that line and omits it. -/
theorem C17_terminator_line_scanned_in_remove :
    searchInContent (lit "/*\n*/ console.log(x);") (lit "a.js") = [] ∧
    removeConsoleLog (lit "/*\n*/ console.log(x);") (lit "a.js") = (lit "/*", true) := by
  decide

/-! ## The loop of `searchInContent` -/

theorem searchLoop_cons (path : Bytes) (st : SearchState) (n : Nat) (l : Bytes)
    (ls : List Bytes) :
    searchLoop path st n (l :: ls) =
      (searchStep path st n l).2 ++ searchLoop path (searchStep path st n l).1 (n + 1) ls := by
  rw [searchLoop]

theorem searchEnd_cons (path : Bytes) (st : SearchState) (n : Nat) (l : Bytes)
    (ls : List Bytes) :
    searchEnd path st n (l :: ls) = searchEnd path (searchStep path st n l).1 (n + 1) ls := by
  rw [searchEnd]

theorem searchLoop_append (path : Bytes) (st : SearchState) (n : Nat) (xs ys : List Bytes) :
    searchLoop path st n (xs ++ ys) =
      searchLoop path st n xs ++
        searchLoop path (searchEnd path st n xs) (n + xs.length) ys := by
  induction xs generalizing st n with
  | nil => simp [searchLoop, searchEnd]
  | cons l xs ih =>
    rw [List.cons_append, searchLoop_cons, searchLoop_cons, searchEnd_cons, ih,
      List.append_assoc, List.length_cons]
    congr 3
    omega

theorem searchEnd_append (path : Bytes) (st : SearchState) (n : Nat) (xs ys : List Bytes) :
    searchEnd path st n (xs ++ ys) =
      searchEnd path (searchEnd path st n xs) (n + xs.length) ys := by
  induction xs generalizing st n with
  | nil => simp [searchEnd]
  | cons l xs ih =>
    rw [List.cons_append, searchEnd_cons, searchEnd_cons, ih, List.length_cons]
    congr 1
    omega

/-- A line without comment marker read outside a comment goes to the scan of calls. -/
theorem searchStep_of_noMarker (path : Bytes) (st : SearchState) (n : Nat) (l : Bytes)
    (hc : st.inComment = false) (h : noMarker l) :
    searchStep path st n l = searchScan path st n l := by
  unfold searchStep
  simp [hc, not_lineComment_of_no_lineMark h.1, h.2.1]

theorem searchScan_active (path : Bytes) (st : SearchState) (n : Nat) (l : Bytes)
    (hl : st.inConsoleLog = true) :
    searchScan path st n l =
      if (scanParens st.parenCount l).2 = true then
        ({ st with inConsoleLog := false, parenCount := (scanParens st.parenCount l).1,
                   consoleLogLines := st.consoleLogLines ++ [l] },
          [MatchRecord.lines path st.consoleLogStart (n + 1)
            (truncateStatement (joinLF (st.consoleLogLines ++ [l])))])
      else
        ({ st with parenCount := (scanParens st.parenCount l).1,
                   consoleLogLines := st.consoleLogLines ++ [l] }, []) := by
  simp [searchScan, hl]

theorem searchScan_none (path : Bytes) (st : SearchState) (n : Nat) (l : Bytes)
    (hl : st.inConsoleLog = false) (hi : index l consoleLog = none) :
    searchScan path st n l = (st, []) := by
  simp [searchScan, hl, contains, hi]

/-- The scan of a line that opens a call, outside a call: what the loop over the text
from the `(` returns decides between a one-line record and an open call. -/
theorem searchScan_start (path : Bytes) (st : SearchState) (n : Nat) (l : Bytes) (i j : Nat)
    (hl : st.inConsoleLog = false) (hi : index l consoleLog = some i)
    (hpre : contains (l.take i) lineMark = false)
    (hj : index (l.drop i) (lit "(") = some j) :
    searchScan path st n l =
      if (scanParens 0 ((l.drop i).drop j)).2 = true then
        ({ inComment := st.inComment, inConsoleLog := false, consoleLogStart := n + 1,
           parenCount := (scanParens 0 ((l.drop i).drop j)).1, consoleLogLines := [l] },
          [MatchRecord.line path (n + 1) (trimSpace l)])
      else
        ({ inComment := st.inComment, inConsoleLog := true, consoleLogStart := n + 1,
           parenCount := (scanParens 0 ((l.drop i).drop j)).1, consoleLogLines := [l] },
          []) := by
  unfold searchScan
  simp only [hl, Bool.false_eq_true, if_false, contains_of_index hi, if_true, hi, hpre, hj]

/-- Lines without comment marker and without `console.log`, read outside a comment and
outside a call, print nothing and leave the state as it is. -/
theorem searchLoop_plain (path : Bytes) (st : SearchState) (n : Nat) (ls : List Bytes)
    (hc : st.inComment = false) (hl : st.inConsoleLog = false)
    (h : ∀ l ∈ ls, noMarker l ∧ contains l consoleLog = false) :
    searchLoop path st n ls = [] ∧ searchEnd path st n ls = st := by
  induction ls generalizing n with
  | nil => simp [searchLoop, searchEnd]
  | cons l ls ih =>
    have hstep : searchStep path st n l = (st, []) := by
      rw [searchStep_of_noMarker path st n l hc (h l (by simp)).1,
        searchScan_none path st n l hl (index_none_of_contains_false (h l (by simp)).2)]
    obtain ⟨h1, h2⟩ := ih (n + 1) (fun x hx => h x (List.mem_cons_of_mem _ hx))
    rw [searchLoop_cons, searchEnd_cons, hstep]
    exact ⟨by simpa using h1, h2⟩

/-- Inside a call, lines without comment marker on which the count never comes back to
zero print nothing and are collected. -/
theorem searchLoop_active (path : Bytes) (st : SearchState) (n : Nat) (ls : List Bytes)
    (hc : st.inComment = false) (hl : st.inConsoleLog = true) (hpc : 0 < st.parenCount)
    (hm : ∀ l ∈ ls, noMarker l)
    (hopen : ∀ k, st.parenCount + balance (ls.flatten.take k) ≠ 0) :
    searchLoop path st n ls = [] ∧
      searchEnd path st n ls =
        { st with parenCount := st.parenCount + balance ls.flatten,
                  consoleLogLines := st.consoleLogLines ++ ls } := by
  induction ls generalizing st n with
  | nil =>
    cases st
    simp [searchLoop, searchEnd, balance_nil]
  | cons l ls ih =>
    simp only [List.flatten_cons] at hopen
    have hline : ∀ k, st.parenCount + balance (l.take k) ≠ 0 := by
      intro k
      by_cases hkl : k ≤ l.length
      · have := hopen k
        rwa [List.take_append_of_le_length hkl] at this
      · have := hopen l.length
        rw [List.take_append_of_le_length (le_refl _), List.take_length] at this
        rwa [List.take_of_length_le (by omega)]
    obtain ⟨hs, hpos⟩ := scanParens_open hpc hline
    have hrest : ∀ k, st.parenCount + balance l + balance (ls.flatten.take k) ≠ 0 := by
      intro k
      have := hopen (l.length + k)
      rw [List.take_append, balance_append] at this
      omega
    have hstep : searchStep path st n l =
        ({ st with parenCount := st.parenCount + balance l,
                   consoleLogLines := st.consoleLogLines ++ [l] }, []) := by
      rw [searchStep_of_noMarker path st n l hc (hm l (by simp)),
        searchScan_active path st n l hl, hs]
      simp
    obtain ⟨h1, h2⟩ := ih { st with parenCount := st.parenCount + balance l,
                                    consoleLogLines := st.consoleLogLines ++ [l] } (n + 1)
      hc hl hpos (fun x hx => hm x (List.mem_cons_of_mem _ hx)) hrest
    rw [searchLoop_cons, searchEnd_cons, hstep]
    refine ⟨by simpa using h1, ?_⟩
    simp only []
    rw [h2]
    simp [balance_append, add_assoc]

theorem truncateStatement_short {t : Bytes} (h : t.length ≤ 500) : truncateStatement t = t := by
  unfold truncateStatement
  rw [if_neg (by omega)]

/-- C12: in a content without comment marker whose lines are `pre`, then a call made of
`first`, `mids` and `last`, then `post`, as in C3, with the joined text of the call at
most 500 bytes long, `searchInContent` prints exactly one record, for the lines from
`length pre + 1` to `length pre + length call`, with the lines of the call joined by
line feed as its text. -/
theorem C12_multi_line_record (c path : Bytes) (pre mids post : List Bytes)
    (first last : Bytes) (i j : Nat)
    (hc : splitLF c = pre ++ first :: (mids ++ last :: post))
    (hmark : noMarker c)
    (hplain : ∀ l ∈ pre ++ post, contains l consoleLog = false)
    (hi : index first consoleLog = some i)
    (hj : index (first.drop i) (lit "(") = some j)
    (hopen : ∀ k, 0 < k → balance ((((first.drop i).drop j) ++ mids.flatten).take k) ≠ 0)
    (hclose : ∃ k, balance (((first.drop i).drop j) ++ mids.flatten ++ last.take k) = 0)
    (hlen : (joinLF (first :: (mids ++ [last]))).length ≤ 500) :
    searchInContent c path =
      [MatchRecord.lines path (pre.length + 1) (pre.length + (first :: (mids ++ [last])).length)
        (joinLF (first :: (mids ++ [last])))] := by
  have hline : ∀ l ∈ pre ++ first :: (mids ++ last :: post), noMarker l := fun l hl =>
    noMarker_of_part (infix_of_mem_splitLF (by rw [hc]; exact hl)) hmark
  have hx : lit "(" <+: (first.drop i).drop j := index_some_startsWith hj
  have hxlen : 0 < ((first.drop i).drop j).length := by
    obtain ⟨t, ht⟩ := hx
    rw [← ht]
    simp [lit]
  have hinit : SearchState.init = ⟨false, false, 0, 0, []⟩ := rfl
  obtain ⟨h1, h1e⟩ := searchLoop_plain path ⟨false, false, 0, 0, []⟩ 0 pre rfl rfl
    (fun l hl => ⟨hline l (by simp [hl]), hplain l (by simp [hl])⟩)
  have hfirst : ∀ k, 0 < k → balance (((first.drop i).drop j).take k) ≠ 0 := by
    intro k hk
    by_cases hkl : k ≤ ((first.drop i).drop j).length
    · have := hopen k hk
      rwa [List.take_append_of_le_length hkl] at this
    · have := hopen ((first.drop i).drop j).length hxlen
      rw [List.take_append_of_le_length (le_refl _), List.take_length] at this
      rwa [List.take_of_length_le (by omega)]
  have hfm := hline first (by simp)
  obtain ⟨hs, hpos⟩ := scanParens_start_open hx hfirst
  have h2 : searchStep path ⟨false, false, 0, 0, []⟩ (0 + pre.length) first =
      (⟨false, true, 0 + pre.length + 1, balance ((first.drop i).drop j), [first]⟩, []) := by
    rw [searchStep_of_noMarker path _ _ first rfl hfm,
      searchScan_start path _ _ first i j rfl hi
        (contains_false_of_part (List.take_prefix _ _).isInfix hfm.1) hj, hs]
    simp
  have hmids : ∀ k, balance ((first.drop i).drop j) + balance (mids.flatten.take k) ≠ 0 := by
    intro k
    have := hopen (((first.drop i).drop j).length + k) (by omega)
    rwa [List.take_append, balance_append] at this
  obtain ⟨h3, h3e'⟩ := searchLoop_active path
    ⟨false, true, 0 + pre.length + 1, balance ((first.drop i).drop j), [first]⟩
    (0 + pre.length + 1) mids rfl rfl hpos (fun l hl => hline l (by simp [hl])) hmids
  have h3e : searchEnd path
      ⟨false, true, 0 + pre.length + 1, balance ((first.drop i).drop j), [first]⟩
      (0 + pre.length + 1) mids =
      ⟨false, true, 0 + pre.length + 1,
        balance ((first.drop i).drop j) + balance mids.flatten, first :: mids⟩ := by
    rw [h3e']
    simp
  have hpos2 := (scanParens_open hpos hmids).2
  have h4 : scanParens (balance ((first.drop i).drop j) + balance mids.flatten) last =
      (0, true) := by
    apply scanParens_close hpos2
    obtain ⟨k, hk⟩ := hclose
    refine ⟨k, ?_⟩
    rwa [balance_append, balance_append] at hk
  have hjoin : first :: mids ++ [last] = first :: (mids ++ [last]) := rfl
  have h5 : searchStep path
      ⟨false, true, 0 + pre.length + 1,
        balance ((first.drop i).drop j) + balance mids.flatten, first :: mids⟩
      (0 + pre.length + 1 + mids.length) last =
      (⟨false, false, 0 + pre.length + 1, 0, first :: mids ++ [last]⟩,
        [MatchRecord.lines path (0 + pre.length + 1) (0 + pre.length + 1 + mids.length + 1)
          (joinLF (first :: (mids ++ [last])))]) := by
    rw [searchStep_of_noMarker path _ _ last rfl (hline last (by simp)),
      searchScan_active path _ _ last rfl]
    simp only [h4, if_true]
    rw [hjoin, truncateStatement_short hlen]
  obtain ⟨h6, _⟩ := searchLoop_plain path
    ⟨false, false, 0 + pre.length + 1, 0, first :: mids ++ [last]⟩
    (0 + pre.length + 1 + mids.length + 1) post rfl rfl
    (fun l hl => ⟨hline l (by simp [hl]), hplain l (by simp [hl])⟩)
  unfold searchInContent
  rw [hc, hinit, searchLoop_append, h1, h1e, List.nil_append, searchLoop_cons, h2]
  simp only [List.nil_append]
  rw [searchLoop_append, h3, h3e, List.nil_append, searchLoop_cons, h5]
  simp only []
  rw [h6]
  simp only [List.append_nil, List.length_cons, List.length_append, List.length_nil]
  congr 2 <;> omega

/-- C12 at the three-line call of the specification: one record, for lines 1 to 3. -/
theorem C12_multi_line_record_witness :
    searchInContent (lit "console.log(\n  \"value:\", x\n);") (lit "a.js") =
      [MatchRecord.lines (lit "a.js") 1 3 (lit "console.log(\n  \"value:\", x\n);")] :=
  C12_multi_line_record (lit "console.log(\n  \"value:\", x\n);") (lit "a.js")
    [] [lit "  \"value:\", x"] [] (lit "console.log(") (lit ");") 0 11
    (by decide) ⟨by decide, by decide, by decide⟩ (by simp) (by decide) (by decide)
    (by
      intro k hk
      have h : ((List.drop 11 (List.drop 0 (lit "console.log("))) ++
          List.flatten [lit "  \"value:\", x"]) = 40 :: lit "  \"value:\", x" := by decide
      rw [h]
      obtain ⟨n, rfl⟩ : ∃ n, k = n + 1 := ⟨k - 1, by omega⟩
      have hall : ∀ b ∈ lit "  \"value:\", x", b ≠ 40 ∧ b ≠ 41 := by decide
      have h3 : ∀ m, balance (List.take m (lit "  \"value:\", x")) = 0 := by
        intro m
        unfold balance
        rw [List.count_eq_zero_of_not_mem (fun hm => (hall 40 (List.mem_of_mem_take hm)).1 rfl),
          List.count_eq_zero_of_not_mem (fun hm => (hall 41 (List.mem_of_mem_take hm)).2 rfl)]
        rfl
      rw [List.take_succ_cons, balance_cons, h3]
      decide)
    ⟨1, by decide⟩ (by decide)

/-! ## The text of a record -/

theorem searchScan_noparen (path : Bytes) (st : SearchState) (n : Nat) (l : Bytes) (i : Nat)
    (hl : st.inConsoleLog = false) (hi : index l consoleLog = some i)
    (hpre : contains (l.take i) lineMark = false)
    (hj : index (l.drop i) (lit "(") = none) :
    searchScan path st n l =
      ({ inComment := st.inComment, inConsoleLog := true, consoleLogStart := n + 1,
         parenCount := 0, consoleLogLines := [l] }, []) := by
  unfold searchScan
  simp only [hl, Bool.false_eq_true, if_false, contains_of_index hi, if_true, hi, hpre, hj]

theorem truncateStatement_length (t : Bytes) : (truncateStatement t).length ≤ 500 := by
  unfold truncateStatement
  split_ifs with h
  · have h3 : (lit "...").length = 3 := by decide
    rw [List.length_append, List.length_take, h3]
    omega
  · omega

/-- A record printed by the scan of calls is a one-line record or carries a text that
went through the truncation. -/
theorem searchScan_records (path : Bytes) (st : SearchState) (n : Nat) (l : Bytes) :
    ∀ r ∈ (searchScan path st n l).2,
      (∃ k t, r = MatchRecord.line path k t) ∨
        (∃ a b t, r = MatchRecord.lines path a b (truncateStatement t)) := by
  cases hl : st.inConsoleLog
  · cases hi : index l consoleLog with
    | none => simp [searchScan_none path st n l hl hi]
    | some i =>
      cases hpre : contains (l.take i) lineMark
      · cases hj : index (l.drop i) (lit "(") with
        | none => simp [searchScan_noparen path st n l i hl hi hpre hj]
        | some j =>
          rw [searchScan_start path st n l i j hl hi hpre hj]
          split_ifs <;> simp
      · have := searchScan_guarded path st n l hl (fun k hk => by
          rw [hi] at hk
          cases hk
          exact hpre)
        simp [this]
  · rw [searchScan_active path st n l hl]
    split_ifs <;> simp

theorem searchStep_records (path : Bytes) (st : SearchState) (n : Nat) (l : Bytes) :
    ∀ r ∈ (searchStep path st n l).2,
      (∃ k t, r = MatchRecord.line path k t) ∨
        (∃ a b t, r = MatchRecord.lines path a b (truncateStatement t)) := by
  unfold searchStep
  simp only []
  split_ifs
  · simp
  · simp
  · simp
  · simp
  · exact searchScan_records path st n l

theorem searchLoop_records (path : Bytes) (st : SearchState) (n : Nat) (ls : List Bytes) :
    ∀ r ∈ searchLoop path st n ls,
      (∃ k t, r = MatchRecord.line path k t) ∨
        (∃ a b t, r = MatchRecord.lines path a b (truncateStatement t)) := by
  induction ls generalizing st n with
  | nil => simp [searchLoop]
  | cons l ls ih =>
    intro r hr
    rw [searchLoop_cons] at hr
    rcases List.mem_append.1 hr with h | h
    · exact searchStep_records path st n l r h
    · exact ih _ _ r h

/-- C11: the one-line call `longCall` of 516 bytes is printed in full, in a one-line
record, whereas the text of every record for several lines is at most 500 bytes long. -/
theorem C11_single_line_not_truncated :
    searchInContent longCall (lit "a.js") = [MatchRecord.line (lit "a.js") 1 longCall] ∧
    (recordText (MatchRecord.line (lit "a.js") 1 longCall)).length = 516 ∧
    (∀ (c path p : Bytes) (a b : Nat) (t : Bytes),
      MatchRecord.lines p a b t ∈ searchInContent c path → t.length ≤ 500) := by
  refine ⟨?_, ?_, ?_⟩
  · set_option maxRecDepth 100000 in decide
  · set_option maxRecDepth 100000 in decide
  · intro c path p a b t h
    rcases searchLoop_records path _ _ _ _ h with ⟨k, t1, h1⟩ | ⟨a1, b1, t1, h1⟩
    · cases h1
    · cases h1
      exact truncateStatement_length t1

/-! ## Block comments in report mode -/

theorem searchStep_opener (path : Bytes) (st : SearchState) (n : Nat) (l : Bytes)
    (hc : st.inComment = false) (hlc : startsWith (trimSpace l) lineMark = false)
    (ho : contains l blockOpen = true) :
    searchStep path st n l = ({ st with inComment := true }, []) := by
  simp [searchStep, hc, hlc, ho]

theorem searchStep_inside (path : Bytes) (st : SearchState) (n : Nat) (l : Bytes)
    (hc : st.inComment = true) :
    searchStep path st n l =
      (if contains l blockClose = true then { st with inComment := false } else st, []) := by
  unfold searchStep
  simp only [hc, Bool.not_true, Bool.false_and, Bool.false_eq_true, if_false, if_true]
  split_ifs <;> rfl

theorem searchLoop_inside (path : Bytes) (st : SearchState) (n : Nat) (ls : List Bytes)
    (hc : st.inComment = true) (h : ∀ l ∈ ls, contains l blockClose = false) :
    searchLoop path st n ls = [] ∧ searchEnd path st n ls = st := by
  induction ls generalizing n with
  | nil => simp [searchLoop, searchEnd]
  | cons l ls ih =>
    have hstep : searchStep path st n l = (st, []) := by
      rw [searchStep_inside path st n l hc, h l (by simp)]
      simp
    obtain ⟨h1, h2⟩ := ih (n + 1) (fun x hx => h x (List.mem_cons_of_mem _ hx))
    rw [searchLoop_cons, searchEnd_cons, hstep]
    exact ⟨by simpa using h1, h2⟩

/-- From a line that opens a block comment to the next line that holds `*/`, the loop
prints nothing and comes back to the state it was in. -/
theorem searchLoop_comment (path : Bytes) (st : SearchState) (n : Nat) (opener closer : Bytes)
    (mid post : List Bytes) (hc : st.inComment = false)
    (hlc : startsWith (trimSpace opener) lineMark = false)
    (ho : contains opener blockOpen = true)
    (hmid : ∀ l ∈ mid, contains l blockClose = false)
    (hcl : contains closer blockClose = true) :
    searchLoop path st n (opener :: (mid ++ closer :: post)) =
      searchLoop path st (n + mid.length + 2) post := by
  have hst : { { st with inComment := true } with inComment := false } = st := by
    cases st
    simp_all
  obtain ⟨h1, h2⟩ := searchLoop_inside path { st with inComment := true } (n + 1) mid rfl hmid
  have h3 : searchStep path { st with inComment := true } (n + 1 + mid.length) closer =
      (st, []) := by
    rw [searchStep_inside path _ _ closer rfl, hcl, if_pos rfl, hst]
  rw [searchLoop_cons, searchStep_opener path st n opener hc hlc ho]
  simp only [List.nil_append]
  rw [searchLoop_append, h1, h2, List.nil_append, searchLoop_cons, h3]
  simp only [List.nil_append]
  congr 1
  omega

theorem searchLoop_comment_open (path : Bytes) (st : SearchState) (n : Nat) (opener : Bytes)
    (mid : List Bytes) (hc : st.inComment = false)
    (hlc : startsWith (trimSpace opener) lineMark = false)
    (ho : contains opener blockOpen = true)
    (hmid : ∀ l ∈ mid, contains l blockClose = false) :
    searchLoop path st n (opener :: mid) = [] := by
  obtain ⟨h1, _⟩ := searchLoop_inside path { st with inComment := true } (n + 1) mid rfl hmid
  rw [searchLoop_cons, searchStep_opener path st n opener hc hlc ho]
  simpa using h1

theorem searchState_eta (st : SearchState) : { st with inComment := st.inComment } = st := by
  cases st
  rfl

/-- What the body of the loop of `searchInContent` does on a line: it passes over the
line, with at most `inComment` changed; or, inside a call, it collects the line and
counts on; or, outside a call, it starts a call on the line. -/
theorem searchStep_cases (path : Bytes) (st : SearchState) (n : Nat) (l : Bytes) :
    (∃ b, searchStep path st n l = ({ st with inComment := b }, [])) ∨
    (st.inComment = false ∧ st.inConsoleLog = true ∧
      searchStep path st n l =
        ({ st with inConsoleLog := !(scanParens st.parenCount l).2,
                   parenCount := (scanParens st.parenCount l).1,
                   consoleLogLines := st.consoleLogLines ++ [l] },
          if (scanParens st.parenCount l).2 = true then
            [MatchRecord.lines path st.consoleLogStart (n + 1)
              (truncateStatement (joinLF (st.consoleLogLines ++ [l])))]
          else [])) ∨
    (st.inComment = false ∧ st.inConsoleLog = false ∧
      ∃ i, index l consoleLog = some i ∧ contains (l.take i) lineMark = false ∧
        ((index (l.drop i) (lit "(") = none ∧
            searchStep path st n l = (⟨false, true, n + 1, 0, [l]⟩, [])) ∨
          (∃ j, index (l.drop i) (lit "(") = some j ∧
            searchStep path st n l =
              (⟨false, !(scanParens 0 ((l.drop i).drop j)).2, n + 1,
                (scanParens 0 ((l.drop i).drop j)).1, [l]⟩,
                if (scanParens 0 ((l.drop i).drop j)).2 = true then
                  [MatchRecord.line path (n + 1) (trimSpace l)]
                else [])))) := by
  by_cases h1 : (!st.inComment && startsWith (trimSpace l) lineMark) = true
  · left
    exact ⟨st.inComment, by simp [searchStep, h1, searchState_eta]⟩
  · by_cases h2 : (!st.inComment && contains l blockOpen) = true
    · left
      exact ⟨true, by simp [searchStep, h1, h2]⟩
    · by_cases hc : st.inComment = true
      · left
        by_cases h3 : contains l blockClose = true
        · exact ⟨false, by simp [searchStep, hc, h3]⟩
        · refine ⟨st.inComment, ?_⟩
          rw [searchState_eta, searchStep_inside path st n l hc, if_neg h3]
      · have hcf : st.inComment = false := by simpa using hc
        have hlc : startsWith (trimSpace l) lineMark = false := by simpa [hcf] using h1
        have hbo : contains l blockOpen = false := by simpa [hcf] using h2
        have hstep : searchStep path st n l = searchScan path st n l := by
          simp [searchStep, hcf, hlc, hbo]
        rw [hstep]
        by_cases hl : st.inConsoleLog = true
        · right; left
          refine ⟨hcf, hl, ?_⟩
          rw [searchScan_active path st n l hl]
          generalize scanParens st.parenCount l = r
          obtain ⟨a, b⟩ := r
          cases b <;> simp [hl]
        · have hlf : st.inConsoleLog = false := by simpa using hl
          cases hi : index l consoleLog with
          | none =>
            left
            exact ⟨st.inComment, by
              rw [searchScan_none path st n l hlf hi, searchState_eta]⟩
          | some i =>
            cases hpre : contains (l.take i) lineMark
            · right; right
              refine ⟨hcf, hlf, i, rfl, hpre, ?_⟩
              cases hj : index (l.drop i) (lit "(") with
              | none =>
                left
                refine ⟨rfl, ?_⟩
                rw [searchScan_noparen path st n l i hlf hi hpre hj, hcf]
              | some j =>
                right
                refine ⟨j, rfl, ?_⟩
                rw [searchScan_start path st n l i j hlf hi hpre hj, hcf]
                generalize scanParens 0 ((l.drop i).drop j) = r
                obtain ⟨a, b⟩ := r
                cases b <;> simp
            · left
              refine ⟨st.inComment, ?_⟩
              rw [searchScan_guarded path st n l hlf (fun k hk => by
                rw [hi] at hk
                cases hk
                exact hpre), searchState_eta]

/-- A record printed on line `n + 1` stands for lines up to `n + 1`. -/
theorem searchStep_lines_le (path : Bytes) (st : SearchState) (n : Nat) (l : Bytes) :
    ∀ r ∈ (searchStep path st n l).2, ∀ x ∈ recordLines r, x ≤ n + 1 := by
  intro r hr x hx
  rcases searchStep_cases path st n l with ⟨b, h⟩ | ⟨_, _, h⟩ | ⟨_, _, i, _, _, h⟩
  · rw [h] at hr
    cases hr
  · rw [h] at hr
    simp only [] at hr
    split_ifs at hr
    · rw [List.mem_singleton] at hr
      subst hr
      simp only [recordLines, List.mem_range'_1] at hx
      omega
    · cases hr
  · rcases h with ⟨_, h⟩ | ⟨j, _, h⟩
    · rw [h] at hr
      cases hr
    · rw [h] at hr
      simp only [] at hr
      split_ifs at hr
      · rw [List.mem_singleton] at hr
        subst hr
        simp only [recordLines, List.mem_singleton] at hx
        omega
      · cases hr

theorem searchLoop_lines_le (path : Bytes) (st : SearchState) (n : Nat) (ls : List Bytes) :
    ∀ r ∈ searchLoop path st n ls, ∀ x ∈ recordLines r, x ≤ n + ls.length := by
  induction ls generalizing st n with
  | nil => simp [searchLoop]
  | cons l ls ih =>
    intro r hr x hx
    rw [searchLoop_cons] at hr
    rw [List.length_cons]
    rcases List.mem_append.1 hr with h | h
    · have := searchStep_lines_le path st n l r h x hx
      omega
    · have := ih _ _ r h x hx
      omega

/-- Past line `m`, with no call open from line `m` or before, records stand for lines
after `m` only. -/
theorem searchStep_lines_gt (path : Bytes) (st : SearchState) (n m : Nat) (l : Bytes)
    (hmn : m ≤ n) (hst : st.inConsoleLog = true → m < st.consoleLogStart) :
    (∀ r ∈ (searchStep path st n l).2, ∀ x ∈ recordLines r, m < x) ∧
      ((searchStep path st n l).1.inConsoleLog = true →
        m < (searchStep path st n l).1.consoleLogStart) := by
  rcases searchStep_cases path st n l with ⟨b, h⟩ | ⟨_, hl, h⟩ | ⟨_, _, i, _, _, h⟩
  · rw [h]
    exact ⟨fun r hr => (by cases hr), hst⟩
  · rw [h]
    refine ⟨?_, fun _ => hst hl⟩
    intro r hr x hx
    simp only [] at hr
    split_ifs at hr
    · rw [List.mem_singleton] at hr
      subst hr
      simp only [recordLines, List.mem_range'_1] at hx
      have := hst hl
      omega
    · cases hr
  · rcases h with ⟨_, h⟩ | ⟨j, _, h⟩
    · rw [h]
      exact ⟨fun r hr => (by cases hr), fun _ => (by simp only []; omega)⟩
    · rw [h]
      refine ⟨?_, fun _ => (by simp only []; omega)⟩
      intro r hr x hx
      simp only [] at hr
      split_ifs at hr
      · rw [List.mem_singleton] at hr
        subst hr
        simp only [recordLines, List.mem_singleton] at hx
        omega
      · cases hr

theorem searchLoop_lines_gt (path : Bytes) (st : SearchState) (n m : Nat) (ls : List Bytes)
    (hmn : m ≤ n) (hst : st.inConsoleLog = true → m < st.consoleLogStart) :
    ∀ r ∈ searchLoop path st n ls, ∀ x ∈ recordLines r, m < x := by
  induction ls generalizing st n with
  | nil => simp [searchLoop]
  | cons l ls ih =>
    intro r hr x hx
    obtain ⟨h1, h2⟩ := searchStep_lines_gt path st n m l hmn hst
    rw [searchLoop_cons] at hr
    rcases List.mem_append.1 hr with h | h
    · exact h1 r h x hx
    · exact ih _ (n + 1) (by omega) h2 r h x hx

/-- C19: when `searchInContent` reads, outside a comment and outside a call, a line that
contains `/*` and does not start with `//` once trimmed, it prints nothing on that line
and on the lines after it up to and including the next line that contains `*/`, also when
the first line contains `*/` itself: the records of the content are those printed on the
lines before, which stand for these lines only, and those printed on the lines after the
comment, which stand for lines after it only; when no later line contains `*/`, nothing
is printed to the end of the content. -/
theorem C19_report_comment_span (c path : Bytes) (pre mid : List Bytes) (opener : Bytes)
    (hcode : (searchEnd path SearchState.init 0 pre).inComment = false)
    (hidle : (searchEnd path SearchState.init 0 pre).inConsoleLog = false)
    (hlc : startsWith (trimSpace opener) lineMark = false)
    (ho : contains opener blockOpen = true)
    (hmid : ∀ l ∈ mid, contains l blockClose = false) :
    (∀ r ∈ searchLoop path SearchState.init 0 pre, ∀ x ∈ recordLines r, x ≤ pre.length) ∧
    (splitLF c = pre ++ opener :: mid →
      searchInContent c path = searchLoop path SearchState.init 0 pre) ∧
    (∀ (closer : Bytes) (post : List Bytes), contains closer blockClose = true →
      splitLF c = pre ++ opener :: (mid ++ closer :: post) →
      searchInContent c path =
        searchLoop path SearchState.init 0 pre ++
          searchLoop path (searchEnd path SearchState.init 0 pre)
            (pre.length + mid.length + 2) post ∧
      ∀ r ∈ searchLoop path (searchEnd path SearchState.init 0 pre)
          (pre.length + mid.length + 2) post,
        ∀ x ∈ recordLines r, pre.length + mid.length + 2 < x) := by
  refine ⟨?_, ?_, ?_⟩
  · intro r hr x hx
    have := searchLoop_lines_le path SearchState.init 0 pre r hr x hx
    omega
  · intro hc
    unfold searchInContent
    rw [hc, searchLoop_append, searchLoop_comment_open path _ _ opener mid hcode hlc ho hmid,
      List.append_nil]
  · intro closer post hcl hc
    refine ⟨?_, ?_⟩
    · unfold searchInContent
      rw [hc, searchLoop_append,
        searchLoop_comment path _ _ opener closer mid post hcode hlc ho hmid hcl]
      simp only [Nat.zero_add]
    · exact searchLoop_lines_gt path _ _ _ post (le_refl _) (fun h => by
        rw [hidle] at h
        cases h)

/-- C19 at the content `/* c */` then `console.log(x);`: no record. -/
theorem C19_report_comment_span_witness :
    searchInContent (lit "/* c */\nconsole.log(x);") (lit "a.js") = [] :=
  (C19_report_comment_span (lit "/* c */\nconsole.log(x);") (lit "a.js") []
    [lit "console.log(x);"] (lit "/* c */") (by decide) (by decide) (by decide) (by decide)
    (by decide)).2.1 (by decide)

/-! ## The parenthesis depth inside a call -/

/-- The loop ends a call only at a `)` before which the count is exactly one, and it
leaves the count at zero. -/
theorem scanParens_closed (pc : Int) (s : Bytes) (h : (scanParens pc s).2 = true) :
    (scanParens pc s).1 = 0 ∧ ∃ t u, s = t ++ 41 :: u ∧ pc + balance t = 1 := by
  induction s generalizing pc with
  | nil => simp [scanParens] at h
  | cons ch s ih =>
    rw [scanParens] at h ⊢
    by_cases h1 : ch = 40
    · subst h1
      simp only [if_true] at h ⊢
      obtain ⟨h0, t, u, hs, hb⟩ := ih (pc + 1) h
      refine ⟨h0, 40 :: t, u, by rw [hs]; rfl, ?_⟩
      rw [balance_cons]
      simp only [if_true]
      omega
    · by_cases h2 : ch = 41
      · subst h2
        simp only [h1, if_false, if_true] at h ⊢
        by_cases h0 : pc - 1 = 0
        · simp only [h0, if_true]
          exact ⟨trivial, [], s, rfl, by rw [balance_nil]; omega⟩
        · simp only [h0, if_false] at h ⊢
          obtain ⟨h3, t, u, hs, hb⟩ := ih (pc - 1) h
          refine ⟨h3, 41 :: t, u, by rw [hs]; rfl, ?_⟩
          rw [balance_cons]
          simp only [h1, if_false, if_true]
          omega
      · simp only [h1, h2, if_false] at h ⊢
        obtain ⟨h3, t, u, hs, hb⟩ := ih pc h
        refine ⟨h3, ch :: t, u, by rw [hs]; rfl, ?_⟩
        rw [balance_cons]
        simp only [h1, h2, if_false]
        omega

/-- The loop of a line that starts a call, entered at the `(`, leaves a count that is
zero when the call is closed on the line and positive when it is not. -/
theorem scanParens_start (x : Bytes) (hx : lit "(" <+: x) :
    (scanParens 0 x = (0, true)) ∨ ((scanParens 0 x).2 = false ∧ 0 < (scanParens 0 x).1) := by
  obtain ⟨t, rfl⟩ := hx
  have hl : lit "(" = [40] := by decide
  rw [hl]
  simp only [List.singleton_append, List.cons_append, List.nil_append]
  rw [scanParens_zero_cons]
  rcases scanParens_spec 1 t (by omega) with ⟨he, _⟩ | ⟨he, hk⟩
  · left; exact he
  · right
    rw [he]
    have := hk t.length
    rw [List.take_length] at this
    exact ⟨rfl, this⟩

theorem scanParens_positive {pc : Int} {s : Bytes} (hpc : 0 < pc)
    (h : (scanParens pc s).2 = false) : 0 < (scanParens pc s).1 := by
  rcases scanParens_spec pc s hpc with ⟨he, _⟩ | ⟨he, hk⟩
  · rw [he] at h
    cases h
  · rw [he]
    have := hk s.length
    rwa [List.take_length] at this

/-- The count with which a line starts a call in remove mode is zero, or positive. -/
theorem callStart_nonneg {l : Bytes} {pc : Int} (h : callStart l = some pc) : 0 ≤ pc := by
  unfold callStart at h
  cases hi : index l consoleLog with
  | none => simp [hi] at h
  | some i =>
    simp only [hi] at h
    split_ifs at h
    cases hj : index (List.drop i l) (lit "(") with
    | none => simp [hj] at h
    | some j =>
      simp only [hj, Option.some.injEq] at h
      rcases scanParens_start _ (index_some_startsWith hj) with he | ⟨_, hp⟩
      · rw [he] at h
        omega
      · omega

/-- In remove mode the count is positive whenever the scanner is inside a call. -/
theorem removeStep_depth (st : RemoveState) (l : Bytes)
    (h : st.inConsoleLog = true → 0 < st.parenCount) :
    (removeStep st l).1.inConsoleLog = true → 0 < (removeStep st l).1.parenCount := by
  rw [removeStep_eq]
  split
  · exact h
  · by_cases hl : st.inConsoleLog = true
    · rw [removeScan_active { st with inComment := false } l hl]
      intro hin
      exact scanParens_positive (h hl) (by simpa using hin)
    · have hlf : st.inConsoleLog = false := by simpa using hl
      rw [removeScan_idle { st with inComment := false } l hlf]
      cases hcs : callStart l with
      | none =>
        intro hin
        rw [hlf] at hin
        cases hin
      | some pc =>
        intro hin
        have h0 := callStart_nonneg hcs
        have hne : pc ≠ 0 := by simpa using hin
        show 0 < pc
        omega

theorem removeLoop_depth (st : RemoveState) (ls : List Bytes)
    (h : st.inConsoleLog = true → 0 < st.parenCount) :
    (removeLoop st [] ls).2.inConsoleLog = true → 0 < (removeLoop st [] ls).2.parenCount := by
  induction ls generalizing st with
  | nil => simpa [removeLoop] using h
  | cons l ls ih =>
    rw [removeLoop_cons]
    exact ih _ (removeStep_depth st l h)

/-- A step of remove mode that leaves a call has scanned the line and closed the call
at a `)`, with the count at zero. -/
theorem removeStep_closing (st : RemoveState) (l : Bytes) (hl : st.inConsoleLog = true)
    (h : (removeStep st l).1.inConsoleLog = false) :
    (removeStep st l).1.parenCount = 0 ∧ (scanParens st.parenCount l).2 = true := by
  rw [removeStep_eq] at h ⊢
  split at h
  · rw [hl] at h
    cases h
  · next hk =>
    rw [if_neg hk]
    rw [removeScan_active { st with inComment := false } l hl] at h ⊢
    have hcl : (scanParens st.parenCount l).2 = true := by simpa using h
    exact ⟨(scanParens_closed _ _ hcl).1, hcl⟩

/-- The invariant of report mode: inside a call the collected lines start with the line
on which the call started, and the count is positive when that line has a `(` after
its first `console.log`. -/
theorem searchStep_depth (path : Bytes) (st : SearchState) (n : Nat) (l : Bytes)
    (h : st.inConsoleLog = true → ∃ first rest, st.consoleLogLines = first :: rest ∧
      ∀ i, index first consoleLog = some i → contains (first.drop i) (lit "(") = true →
        0 < st.parenCount) :
    (searchStep path st n l).1.inConsoleLog = true →
      ∃ first rest, (searchStep path st n l).1.consoleLogLines = first :: rest ∧
        ∀ i, index first consoleLog = some i → contains (first.drop i) (lit "(") = true →
          0 < (searchStep path st n l).1.parenCount := by
  rcases searchStep_cases path st n l with ⟨b, hs⟩ | ⟨_, hl, hs⟩ | ⟨_, _, i, hi, _, hs⟩
  · rw [hs]
    exact h
  · rw [hs]
    intro hin
    obtain ⟨first, rest, hlines, hpos⟩ := h hl
    refine ⟨first, rest ++ [l], by simp [hlines], ?_⟩
    intro k hk hp
    exact scanParens_positive (hpos k hk hp) (by simpa using hin)
  · rcases hs with ⟨hj, hs⟩ | ⟨j, hj, hs⟩
    · rw [hs]
      intro _
      refine ⟨l, [], rfl, ?_⟩
      intro k hk hp
      rw [hi] at hk
      cases hk
      rw [contains, hj] at hp
      cases hp
    · rw [hs]
      intro hin
      refine ⟨l, [], rfl, ?_⟩
      intro _ _ _
      rcases scanParens_start _ (index_some_startsWith hj) with he | ⟨_, hp⟩
      · rw [he] at hin
        cases hin
      · exact hp

theorem searchEnd_depth (path : Bytes) (st : SearchState) (n : Nat) (ls : List Bytes)
    (h : st.inConsoleLog = true → ∃ first rest, st.consoleLogLines = first :: rest ∧
      ∀ i, index first consoleLog = some i → contains (first.drop i) (lit "(") = true →
        0 < st.parenCount) :
    (searchEnd path st n ls).inConsoleLog = true →
      ∃ first rest, (searchEnd path st n ls).consoleLogLines = first :: rest ∧
        ∀ i, index first consoleLog = some i → contains (first.drop i) (lit "(") = true →
          0 < (searchEnd path st n ls).parenCount := by
  induction ls generalizing st n with
  | nil => simpa [searchEnd] using h
  | cons l ls ih =>
    rw [searchEnd_cons]
    exact ih _ _ (searchStep_depth path st n l h)

/-- A step of report mode that leaves a call has scanned the line and closed the call
at a `)`, with the count at zero. -/
theorem searchStep_closing (path : Bytes) (st : SearchState) (n : Nat) (l : Bytes)
    (hl : st.inConsoleLog = true) (h : (searchStep path st n l).1.inConsoleLog = false) :
    (searchStep path st n l).1.parenCount = 0 ∧ (scanParens st.parenCount l).2 = true := by
  rcases searchStep_cases path st n l with ⟨b, hs⟩ | ⟨_, _, hs⟩ | ⟨_, hlf, _⟩
  · rw [hs] at h
    rw [hl] at h
    cases h
  · rw [hs] at h ⊢
    have hcl : (scanParens st.parenCount l).2 = true := by simpa using h
    exact ⟨(scanParens_closed _ _ hcl).1, hcl⟩
  · rw [hl] at hlf
    cases hlf

/-- C18: in both modes, after any number `k` of lines of any content, a scanner that is
inside a call whose start line has a `(` after its first `console.log` (in remove mode
every call starts on such a line) has a parenthesis depth of at least 1; and a call is
closed only by a `)` read at depth exactly 1, which leaves the depth at exactly 0. -/
theorem C18_depth_invariant (c path : Bytes) (k : Nat) :
    ((removeLoop RemoveState.init [] ((splitLF c).take k)).2.inConsoleLog = true →
      1 ≤ (removeLoop RemoveState.init [] ((splitLF c).take k)).2.parenCount) ∧
    ((searchEnd path SearchState.init 0 ((splitLF c).take k)).inConsoleLog = true →
      ∃ first rest,
        (searchEnd path SearchState.init 0 ((splitLF c).take k)).consoleLogLines =
          first :: rest ∧
        ∀ i, index first consoleLog = some i → contains (first.drop i) (lit "(") = true →
          1 ≤ (searchEnd path SearchState.init 0 ((splitLF c).take k)).parenCount) ∧
    (∀ (pc : Int) (s : Bytes), (scanParens pc s).2 = true →
      (scanParens pc s).1 = 0 ∧ ∃ t u, s = t ++ 41 :: u ∧ pc + balance t = 1) ∧
    (∀ (st : RemoveState) (l : Bytes), st.inConsoleLog = true →
      (removeStep st l).1.inConsoleLog = false →
      (removeStep st l).1.parenCount = 0 ∧ (scanParens st.parenCount l).2 = true) ∧
    (∀ (st : SearchState) (n : Nat) (l : Bytes), st.inConsoleLog = true →
      (searchStep path st n l).1.inConsoleLog = false →
      (searchStep path st n l).1.parenCount = 0 ∧ (scanParens st.parenCount l).2 = true) := by
  refine ⟨?_, ?_, scanParens_closed, removeStep_closing, searchStep_closing path⟩
  · intro h
    have := removeLoop_depth RemoveState.init ((splitLF c).take k)
      (fun h0 => by cases h0) h
    omega
  · intro h
    obtain ⟨first, rest, hl, hp⟩ := searchEnd_depth path SearchState.init 0
      ((splitLF c).take k) (fun h0 => by cases h0) h
    refine ⟨first, rest, hl, fun i hi hpar => ?_⟩
    have := hp i hi hpar
    omega

/-- C18 after the first of the two lines `console.log(f(` and `x`: both scanners are
inside the call, at depth 2. -/
theorem C18_depth_invariant_witness :
    (removeLoop RemoveState.init [] ((splitLF (lit "console.log(f(\nx")).take 1)).2.inConsoleLog
      = true ∧
    1 ≤ (removeLoop RemoveState.init [] ((splitLF (lit "console.log(f(\nx")).take 1)).2.parenCount ∧
    (removeLoop RemoveState.init [] ((splitLF (lit "console.log(f(\nx")).take 1)).2.parenCount
      = 2 :=
  ⟨by decide, (C18_depth_invariant (lit "console.log(f(\nx") (lit "a.js") 1).1 (by decide),
    by decide⟩

/-! ## The two modes side by side -/

end ConsoleRemove
